import Mathlib

/-!
# Movement compression and flow statistics (`src/flowmap.c`)

A shallow embedding of the two entry points of `flowmap.c`:

* `_compress_mov` sorts the observations of one individual by time and folds
  consecutive observations at one location into sessions;
* `_flow_stat` walks a session table and counts, per link `from->to`, the
  consecutive session pairs whose idle time is at most `gap`.

Modelling conventions.

* R character vectors are `List String`, R real vectors are `List ℚ`: the
  timestamps are finite reals, and only their order and differences are used.
* A freshly allocated numeric column is a column of `none` (never written);
  a freshly allocated character column is a column of empty strings.
* Reads of `loc`, `time_`, `ordered` inside the loops use `List.getD`; the
  callers pass columns of one length, and the theorems that need it say so.
* The link counts are C `int`s that never exceed the number of sessions, so
  they are embedded as `Nat`.
* `_flow_stat` sizes the buffer of a link name with `strlen(cur_loc)` before it
  assigns `cur_loc` for the row (line 102 before line 103). On the first linked
  row that pointer has no value; the outcome of the read (a fault, or some length)
  is an explicit argument `stray` of the embedding, and the theorems hold for the
  outcomes they name. A read that faults, and a `sprintf` that writes past the
  buffer, leave the call without a result (`none`), like the reads of row 0 of an
  empty table.
* The hash table of `_flow_stat` is the glib table created by
  `g_hash_table_new(g_str_hash, g_int_equal)`: a lookup matches a stored key when
  the stored hash values agree and the key equality function accepts the pair.
  The table is embedded as the list of its entries in order of first insertion;
  the iteration order of the real table is not fixed and is not modelled.
-/

namespace Flowmap

/-! ## Data model -/

/-- One row of the compressed movement table: a stay at `loc` from `stime` to `etime`. -/
structure Session where
  loc : String
  stime : ℚ
  etime : ℚ
deriving DecidableEq

/-- The data frame returned by `_compress_mov`: three columns of equal length. -/
structure Frame where
  loc_v : List String
  stime_v : List (Option ℚ)
  etime_v : List (Option ℚ)
deriving DecidableEq

/-- The local variables of the loop of `_compress_mov` that survive an iteration. -/
structure CompressState where
  loc_v : List String
  stime_v : List (Option ℚ)
  etime_v : List (Option ℚ)
  j : Nat
  last_loc : String
  last_time : ℚ
deriving DecidableEq

/-! ## The index sorter of `order.h` -/

/-- Modelled from the spec: `cmpDouble` is declared in `order.h`, which is not among the
sources. It is the three-way comparison of two reals used to sort ascending. -/
def cmpDouble (a b : ℚ) : Int :=
  if a < b then -1 else if b < a then 1 else 0

/-- The order on indices that `order` sorts by: index `a` may precede index `b`. -/
def idxLe (base : List ℚ) (compar : ℚ → ℚ → Int) (a b : Nat) : Prop :=
  compar (base.getD a 0) (base.getD b 0) ≤ 0

instance (base : List ℚ) (compar : ℚ → ℚ → Int) : DecidableRel (idxLe base compar) :=
  fun a b => inferInstanceAs (Decidable (compar (base.getD a 0) (base.getD b 0) ≤ 0))

/-- Modelled from the spec: `order` is declared in `order.h`, which is not among the
sources. Given `nel` values it returns the permutation of the indices `0 .. nel-1` that
lists the values in ascending order, equal values keeping their input order (spec 4.1,
stable tie-breaking). The element width is storage layout and is left out; the index
array the source passes for the result is the value returned here. -/
def order (base : List ℚ) (nel : Nat) (compar : ℚ → ℚ → Int) : List Nat :=
  List.insertionSort (idxLe base compar) (List.range nel)

/-! ## `_compress_mov` -/

/-- One iteration of the loop of `_compress_mov` (lines 40-65), for loop index `i`. -/
def compress_step (loc : List String) (time_ : List ℚ) (gap_ : ℚ) (ordered : List Nat)
    (s : CompressState) (i : Nat) : CompressState :=
  let idx := ordered.getD i 0
  let cur_loc := loc.getD idx ""
  let cur_time := time_.getD idx 0
  if i = 0 then
    { loc_v := s.loc_v.set s.j cur_loc
      stime_v := s.stime_v.set s.j (some cur_time)
      etime_v := s.etime_v.set s.j (some cur_time)
      j := s.j + 1
      last_loc := cur_loc
      last_time := cur_time }
  else if cur_loc = s.last_loc ∧ cur_time - s.last_time ≤ gap_ then
    -- the same session, update last session
    { loc_v := s.loc_v
      stime_v := s.stime_v
      etime_v := s.etime_v.set (s.j - 1) (some cur_time)
      j := s.j
      last_loc := cur_loc
      last_time := cur_time }
  else
    -- a new session
    { loc_v := s.loc_v.set s.j cur_loc
      stime_v := s.stime_v.set s.j (some cur_time)
      etime_v := s.etime_v.set s.j (some cur_time)
      j := s.j + 1
      last_loc := cur_loc
      last_time := cur_time }

/-- The state in which the loop of `_compress_mov` starts: three fresh columns of `NLEN`
rows and `j = 0`. `last_loc` and `last_time` are not initialised by the source and are
not read in the iteration `i = 0`; they start here as the empty string and zero. -/
def compress_init (NLEN : Nat) : CompressState :=
  { loc_v := List.replicate NLEN ""
    stime_v := List.replicate NLEN none
    etime_v := List.replicate NLEN none
    j := 0
    last_loc := ""
    last_time := 0 }

/-- The loop of `_compress_mov`, run over `i = 0 .. NLEN-1`. -/
def compress_loop (loc : List String) (time_ : List ℚ) (gap_ : ℚ) : CompressState :=
  let NLEN := time_.length
  let ordered := order time_ NLEN cmpDouble
  (List.range NLEN).foldl (compress_step loc time_ gap_ ordered) (compress_init NLEN)

/-- The function `_compress_mov`: the three columns after the loop. -/
def _compress_mov (loc : List String) (time : List ℚ) (gap : ℚ) : Frame :=
  let s := compress_loop loc time gap
  { loc_v := s.loc_v, stime_v := s.stime_v, etime_v := s.etime_v }

/-- A row of a frame as a session, when both its times have been written. -/
def rowSession : String × Option ℚ × Option ℚ → Option Session
  | (l, some s, some e) => some ⟨l, s, e⟩
  | _ => none

/-- The session sequence held by a frame: its written rows, in row order. -/
def Frame.sessions (f : Frame) : List Session :=
  (List.zip f.loc_v (List.zip f.stime_v f.etime_v)).filterMap rowSession

/-! ## The reference walk of spec 4.2 -/

/-- The observation read in one iteration: the pair `(cur_loc, cur_time)` at index `idx`. -/
def obsAt (loc : List String) (time_ : List ℚ) (idx : Nat) : String × ℚ :=
  (loc.getD idx "", time_.getD idx 0)

/-- The observations in the order in which the loop of `_compress_mov` visits them. -/
def visited (loc : List String) (time_ : List ℚ) : List (String × ℚ) :=
  (order time_ time_.length cmpDouble).map (obsAt loc time_)

/-- The walk of spec 4.2 over observations already in visiting order, with the open
session (if any) as state: an observation `(L, T)` extends the open session when `L` is
its location and `T - end ≤ gap`; otherwise the open session is emitted and `(L, T, T)`
is opened; the session still open at the end is emitted. -/
def reference_walk (gap : ℚ) : Option Session → List (String × ℚ) → List Session
  | none, [] => []
  | some s, [] => [s]
  | none, (L, T) :: rest => reference_walk gap (some ⟨L, T, T⟩) rest
  | some s, (L, T) :: rest =>
    if L = s.loc ∧ T - s.etime ≤ gap then
      reference_walk gap (some { s with etime := T }) rest
    else
      s :: reference_walk gap (some ⟨L, T, T⟩) rest

/-- The order on observations by timestamp. -/
def timeLe (p q : String × ℚ) : Prop := p.2 ≤ q.2

instance : DecidableRel timeLe := fun p q => inferInstanceAs (Decidable (p.2 ≤ q.2))

/-- The reference compression of spec 4.2: pair the two columns, sort the pairs by
timestamp (stable, ascending), and walk them. -/
def reference_compress (loc : List String) (time : List ℚ) (gap : ℚ) : List Session :=
  reference_walk gap none (List.insertionSort timeLe (List.zip loc time))

/-- The loop state that holds exactly the sessions `ss` in a table of `n` rows. -/
def stateOf (n : Nat) (ss : List Session) : CompressState :=
  { loc_v := ss.map (fun s => s.loc) ++ List.replicate (n - ss.length) ""
    stime_v := ss.map (fun s => some s.stime) ++ List.replicate (n - ss.length) none
    etime_v := ss.map (fun s => some s.etime) ++ List.replicate (n - ss.length) none
    j := ss.length
    last_loc := (ss.getLast?.map (fun s => s.loc)).getD ""
    last_time := (ss.getLast?.map (fun s => s.etime)).getD 0 }

/-- What one observation does to the open session: the sessions that replace it. -/
def stepSessions (gap : ℚ) (s : Session) (p : String × ℚ) : List Session :=
  if p.1 = s.loc ∧ p.2 - s.etime ≤ gap then [{ s with etime := p.2 }]
  else [s, ⟨p.1, p.2, p.2⟩]

/-- The order on observations that is strict on timestamps: earlier, or the same
observation. -/
def timeLtOrEq (p q : String × ℚ) : Prop := p.2 < q.2 ∨ p = q

/-! ## `_flow_stat` -/

/-- The UTF-8 bytes of one character. -/
def utf8Bytes (c : Char) : List Nat :=
  let n := c.toNat
  if n < 128 then [n]
  else if n < 2048 then [192 + n / 64, 128 + n % 64]
  else if n < 65536 then [224 + n / 4096, 128 + n / 64 % 64, 128 + n % 64]
  else [240 + n / 262144, 128 + n / 4096 % 64, 128 + n / 64 % 64, 128 + n % 64]

/-- The bytes of the C string that `CHAR` yields for a label (taken in UTF-8), the
terminating zero byte excluded. Labels hold no zero byte. -/
def cstr (s : String) : List Nat := s.data.flatMap utf8Bytes

/-- The glib string hash `g_str_hash`: `h = 5381`, then `h = (h << 5) + h + c` for each
byte `c` read as a `signed char`, in 32-bit unsigned arithmetic. -/
def g_str_hash (v : List Nat) : Nat :=
  v.foldl (fun h c => (h * 32 + h + (if c < 128 then c else c + 2 ^ 32 - 256)) % 2 ^ 32) 5381

/-- The glib key equality `g_int_equal`: it compares the `int` stored at the start of each
key, that is the first four bytes of each buffer, terminator included. For the one link
name shorter than three bytes, `"->"`, the fourth byte lies past the terminator and is
left out of the comparison. -/
def g_int_equal (v1 v2 : List Nat) : Bool :=
  (v1 ++ [0]).take 4 == (v2 ++ [0]).take 4

/-- The hash value glib stores for a key: the values 0 and 1 mark unused and removed
slots, so a key hashing to either is stored under 2. -/
def node_hash (h : Nat) : Nat := if h < 2 then 2 else h

/-- Whether a lookup of `key` in the table `stat` of `_flow_stat` stops at the entry
stored under `node_key`: equal stored hashes, and `g_int_equal` accepts the two keys. -/
def key_match (node_key key : String) : Bool :=
  node_hash (g_str_hash (cstr node_key)) == node_hash (g_str_hash (cstr key)) &&
    g_int_equal (cstr node_key) (cstr key)

/-- The hash table `stat`: its entries `(key, value)` in order of first insertion. -/
abbrev GHashTable := List (String × Nat)

/-- The glib `g_hash_table_contains`. -/
def g_hash_table_contains (t : GHashTable) (key : String) : Bool :=
  t.any (fun e => key_match e.1 key)

/-- The glib `g_hash_table_lookup`: the value of the matching entry, a null pointer
(zero) when there is none. -/
def g_hash_table_lookup (t : GHashTable) (key : String) : Nat :=
  match t.find? (fun e => key_match e.1 key) with
  | some e => e.2
  | none => 0

/-- The glib `g_hash_table_insert`: a matching entry keeps its key and takes the new
value; without one, a new entry is added. -/
def g_hash_table_insert : GHashTable → String → Nat → GHashTable
  | [], key, value => [(key, value)]
  | (k, v) :: t, key, value =>
    if key_match k key then (k, value) :: t else (k, v) :: g_hash_table_insert t key value

/-- The link name written by `sprintf(link, "%s->%s", last_loc, cur_loc)`. -/
def link_name (last_loc cur_loc : String) : String :=
  last_loc ++ "->" ++ cur_loc

/-- The local variables of the loop of `_flow_stat` that survive an iteration. `cur_loc` is
declared without a value on line 90 and assigned on line 103 only, inside the branch of
a linked row: it is `none` until then, and afterwards the label of the last linked row. -/
structure FlowState where
  stat : GHashTable
  last_loc : String
  last_et : ℚ
  cur_loc : Option String

/-- The list returned by `_flow_stat`: the column of link names and the column of counts. -/
structure FlowTable where
  edges : List String
  flows : List Nat
deriving DecidableEq

/-- The value of `strlen(cur_loc)` on line 102, which is evaluated before line 103 assigns
`cur_loc` for the row. After an earlier linked row it is the length of that row's label.
On the first linked row the pointer has no value: the read faults (`none`) or runs over
bytes that spell a string of some length `n` (`some n`); `stray` is that outcome, which
the program does not determine. -/
def strlen_cur_loc (stray : Option Nat) (cur_loc : Option String) : Option Nat :=
  match cur_loc with
  | some c => some (cstr c).length
  | none => stray

/-- The update of the table for one link name (lines 106-111): an entry with count 0 is
inserted when the table holds no matching key, then the count found is raised by one. -/
def flow_update (stat : GHashTable) (link : String) : GHashTable :=
  let stat1 :=
    if !g_hash_table_contains stat link then g_hash_table_insert stat link 0 else stat
  g_hash_table_insert stat1 link (g_hash_table_lookup stat1 link + 1)

/-- One iteration of the loop of `_flow_stat` (lines 98-116), for loop index `i`. A linked
row has no result (`none`) when `strlen(cur_loc)` faults, and when the buffer of
`strlen(last_loc) + strlen(cur_loc) + 3` bytes, sized with the old `cur_loc`, is shorter
than the `strlen(last_loc) + 2 + strlen(cur_loc) + 1` bytes that `sprintf` writes with
the new one. -/
def flow_step (stray : Option Nat) (loc : List String) (stime_ etime_ : List ℚ) (gap_ : ℚ)
    (s : FlowState) (i : Nat) : Option FlowState :=
  if stime_.getD i 0 - s.last_et ≤ gap_ then
    -- assemble new link name
    match strlen_cur_loc stray s.cur_loc with
    | none => none
    | some n =>
      let size := (cstr s.last_loc).length + n + 3
      let cur_loc := loc.getD i ""
      if size < (cstr s.last_loc).length + 2 + (cstr cur_loc).length + 1 then none
      else
        some
          { stat := flow_update s.stat (link_name s.last_loc cur_loc)
            last_loc := loc.getD i ""
            last_et := etime_.getD i 0
            cur_loc := some cur_loc }
  else
    some
      { stat := s.stat
        last_loc := loc.getD i ""
        last_et := etime_.getD i 0
        cur_loc := s.cur_loc }

/-- The loop of `_flow_stat`, run over `i = 1 .. length(loc)-1` from the state set up on
lines 94-96; it has no result as soon as one iteration has none. -/
def flow_loop (stray : Option Nat) (loc : List String) (stime etime : List ℚ) (gap : ℚ)
    (l0 : String) (e0 : ℚ) : Option FlowState :=
  (List.range' 1 (loc.length - 1)).foldlM (flow_step stray loc stime etime gap)
    { stat := [], last_loc := l0, last_et := e0, cur_loc := none }

/-- The function `_flow_stat`. It reads `loc[0]` and `etime_[0]` before the loop; on a
table without rows these reads have no value and the result is `none`. The argument
`stray` is the outcome of `strlen` on the unassigned `cur_loc` (see `strlen_cur_loc`). -/
def _flow_stat (stray : Option Nat) (loc : List String) (stime etime : List ℚ) (gap : ℚ) :
    Option FlowTable :=
  match loc[0]?, etime[0]? with
  | some l0, some e0 =>
    match flow_loop stray loc stime etime gap l0 e0 with
    | some s =>
      some { edges := s.stat.map (fun e => e.1), flows := s.stat.map (fun e => e.2) }
    | none => none
  | _, _ => none

/-- The count a flow table holds for the link name `k` (zero when `k` is absent). -/
def FlowTable.count (t : FlowTable) (k : String) : Nat :=
  ((List.zip t.edges t.flows).filter (fun e => e.1 == k)).foldl (fun n e => n + e.2) 0

/-- The sum of the values of a hash table. -/
def total (t : GHashTable) : Nat := (t.map (fun e => e.2)).sum

/-- Whether the session at row `i ≥ 1` follows the session before it within `gap`. -/
def linked (stime etime : List ℚ) (gap : ℚ) (i : Nat) : Bool :=
  decide (stime.getD i 0 - etime.getD (i - 1) 0 ≤ gap)

/-- The number of rows `i ≥ 1` among `n` rows with `stime[i] - etime[i-1] ≤ gap`. -/
def linkedPairs (stime etime : List ℚ) (gap : ℚ) (n : Nat) : Nat :=
  ((List.range' 1 (n - 1)).filter (linked stime etime gap)).length

/-- The number of rows `i ≥ 1` that follow the row before within `gap` and whose link name
`loc[i-1]->loc[i]` is `k`. -/
def linkedPairsNamed (loc : List String) (stime etime : List ℚ) (gap : ℚ) (k : String) : Nat :=
  ((List.range' 1 (loc.length - 1)).filter (fun i =>
    linked stime etime gap i && (link_name (loc.getD (i - 1) "") (loc.getD i "") == k))).length

/-- The midpoint `(start_time + end_time) / 2` of a session. -/
def Session.mid (s : Session) : ℚ := (s.stime + s.etime) / 2

/-- A session folded onto its midpoint: the session that one observation at the midpoint
opens. -/
def Session.collapse (s : Session) : Session := ⟨s.loc, s.mid, s.mid⟩

/-- The observation that stands for a session when it is compressed again: its location
at its midpoint. -/
def Session.midObs (s : Session) : String × ℚ := (s.loc, s.mid)

/-! ## The loop of `_compress_mov` computes the reference walk -/

theorem set_pad_open {α : Type} (A : List α) (d x : α) (m : Nat) :
    (A ++ List.replicate (m + 1) d).set A.length x = (A ++ [x]) ++ List.replicate m d := by
  rw [List.set_append_right _ _ (le_refl _)]
  simp [List.replicate_succ]

theorem set_pad_last {α : Type} (A : List α) (y x d : α) (m : Nat) :
    ((A ++ [y]) ++ List.replicate m d).set A.length x = (A ++ [x]) ++ List.replicate m d := by
  rw [List.append_assoc, List.set_append_right _ _ (le_refl _)]
  simp

theorem step_first (loc : List String) (time_ : List ℚ) (gap_ : ℚ) (ordered : List Nat)
    (n : Nat) :
    compress_step loc time_ gap_ ordered (stateOf (n + 1) []) 0 =
      stateOf (n + 1) [⟨(obsAt loc time_ (ordered.getD 0 0)).1,
        (obsAt loc time_ (ordered.getD 0 0)).2, (obsAt loc time_ (ordered.getD 0 0)).2⟩] := by
  simp [compress_step, stateOf, obsAt, List.replicate_succ]

theorem step_later (loc : List String) (time_ : List ℚ) (gap_ : ℚ) (ordered : List Nat)
    (n i : Nat) (done : List Session) (cur : Session) (hi : i ≠ 0)
    (hroom : done.length + 1 < n) :
    compress_step loc time_ gap_ ordered (stateOf n (done ++ [cur])) i =
      stateOf n (done ++ stepSessions gap_ cur (obsAt loc time_ (ordered.getD i 0))) := by
  obtain ⟨m, rfl⟩ : ∃ m, n = done.length + 1 + (m + 1) := ⟨n - done.length - 2, by omega⟩
  have e1 : done.length + 1 + (m + 1) - (done.length + 1) = m + 1 := by omega
  have e2 : done.length + 1 + (m + 1) - (done.length + 1 + 1) = m := by omega
  simp only [compress_step, obsAt, stepSessions]
  generalize loc.getD (ordered.getD i 0) "" = L
  generalize time_.getD (ordered.getD i 0) 0 = T
  have hset := set_pad_last (done.map fun s => some s.etime) (some cur.etime) (some T) none (m + 1)
  have hl := set_pad_open (done.map (fun s => s.loc) ++ [cur.loc]) "" L m
  have hs := set_pad_open (done.map (fun s => some s.stime) ++ [some cur.stime]) none (some T) m
  have he := set_pad_open (done.map (fun s => some s.etime) ++ [some cur.etime]) none (some T) m
  simp only [List.length_map, List.length_append, List.length_singleton] at hset hl hs he
  have hst : stateOf (done.length + 1 + (m + 1)) (done ++ [cur]) =
      { loc_v := (done.map (fun s => s.loc) ++ [cur.loc]) ++ List.replicate (m + 1) ""
        stime_v := (done.map (fun s => some s.stime) ++ [some cur.stime]) ++
          List.replicate (m + 1) none
        etime_v := (done.map (fun s => some s.etime) ++ [some cur.etime]) ++
          List.replicate (m + 1) none
        j := done.length + 1
        last_loc := cur.loc
        last_time := cur.etime } := by
    simp [stateOf, e1]
  rw [hst]
  by_cases hc : L = cur.loc ∧ T - cur.etime ≤ gap_
  · simp only [hi, if_false, if_true, hc, and_self, Nat.add_sub_cancel, hset]
    simp [stateOf, e1, hc.1]
  · simp only [hi, if_false, hc, hl, hs, he]
    simp [stateOf, e2, Nat.add_assoc]
    omega

theorem reference_walk_extend (gap : ℚ) (s : Session) (L : String) (T : ℚ)
    (rest : List (String × ℚ)) (h : L = s.loc ∧ T - s.etime ≤ gap) :
    reference_walk gap (some s) ((L, T) :: rest) =
      reference_walk gap (some { s with etime := T }) rest := by
  rw [reference_walk, if_pos h]

theorem reference_walk_new (gap : ℚ) (s : Session) (L : String) (T : ℚ)
    (rest : List (String × ℚ)) (h : ¬(L = s.loc ∧ T - s.etime ≤ gap)) :
    reference_walk gap (some s) ((L, T) :: rest) =
      s :: reference_walk gap (some ⟨L, T, T⟩) rest := by
  rw [reference_walk, if_neg h]

theorem order_length (base : List ℚ) (nel : Nat) (compar : ℚ → ℚ → Int) :
    (order base nel compar).length = nel := by
  simp [order, List.length_insertionSort]

theorem loop_tail (loc : List String) (time_ : List ℚ) (gap_ : ℚ) (ordered : List Nat)
    (n : Nat) (hn : ordered.length = n) :
    ∀ (m k : Nat) (done : List Session) (cur : Session), k ≠ 0 → k + m = n →
      done.length + 1 ≤ k →
      (List.range' k m).foldl (compress_step loc time_ gap_ ordered)
          (stateOf n (done ++ [cur])) =
        stateOf n (done ++ reference_walk gap_ (some cur)
          ((ordered.drop k).map (obsAt loc time_))) := by
  intro m
  induction m with
  | zero =>
    intro k done cur _ hk _
    have : ordered.drop k = [] := List.drop_eq_nil_of_le (by omega)
    simp [this, reference_walk]
  | succ m ih =>
    intro k done cur hk0 hk hd
    have hlt : k < ordered.length := by omega
    have hdrop : ordered.drop k = ordered.getD k 0 :: ordered.drop (k + 1) := by
      rw [List.getD_eq_getElem _ _ hlt]
      exact List.drop_eq_getElem_cons hlt
    rw [hdrop, List.range'_succ, List.foldl_cons,
      step_later loc time_ gap_ ordered n k done cur hk0 (by omega), List.map_cons]
    rcases hp : obsAt loc time_ (ordered.getD k 0) with ⟨L, T⟩
    by_cases hc : L = cur.loc ∧ T - cur.etime ≤ gap_
    · have h1 : stepSessions gap_ cur (L, T) = [{ cur with etime := T }] := by
        rw [stepSessions, if_pos hc]
      rw [h1, ih (k + 1) done _ (by omega) (by omega) (by omega),
        reference_walk_extend gap_ cur L T _ hc]
    · have h1 : stepSessions gap_ cur (L, T) = [cur, ⟨L, T, T⟩] := by
        rw [stepSessions, if_neg hc]
      have h2 : done ++ [cur, (⟨L, T, T⟩ : Session)] = (done ++ [cur]) ++ [⟨L, T, T⟩] := by simp
      rw [h1, h2, ih (k + 1) (done ++ [cur]) _ (by omega) (by omega) (by simp; omega),
        reference_walk_new gap_ cur L T _ hc]
      simp

/-- The loop of `_compress_mov` leaves exactly the sessions of the reference walk over the
visited observations in the first rows of its columns. -/
theorem compress_loop_eq (loc : List String) (time_ : List ℚ) (gap_ : ℚ) :
    compress_loop loc time_ gap_ =
      stateOf time_.length (reference_walk gap_ none (visited loc time_)) := by
  simp only [compress_loop, visited]
  generalize hord : order time_ time_.length cmpDouble = ordered
  have hlen : ordered.length = time_.length := by rw [← hord, order_length]
  generalize time_.length = n at *
  cases n with
  | zero =>
    have : ordered = [] := List.length_eq_zero.mp hlen
    simp [this, reference_walk, compress_init, stateOf]
  | succ n =>
    have hcons : ordered = ordered.getD 0 0 :: ordered.drop 1 := by
      cases ordered with
      | nil => simp at hlen
      | cons a l => simp
    have hr : List.range (n + 1) = 0 :: List.range' 1 n := by
      rw [List.range_eq_range', List.range'_succ]
    have hinit : compress_init (n + 1) = stateOf (n + 1) [] := by
      simp [compress_init, stateOf]
    rw [hr, List.foldl_cons, hinit, step_first]
    have := loop_tail loc time_ gap_ ordered (n + 1) hlen n 1 []
      ⟨(obsAt loc time_ (ordered.getD 0 0)).1, (obsAt loc time_ (ordered.getD 0 0)).2,
        (obsAt loc time_ (ordered.getD 0 0)).2⟩ (by omega) (by omega) (by simp)
    simp only [List.nil_append] at this
    rw [this]
    conv_rhs => rw [hcons]
    simp [reference_walk, obsAt]

theorem sessions_pad (m : Nat) :
    List.filterMap rowSession
      (List.zip (List.replicate m "") (List.zip (List.replicate m (none : Option ℚ))
        (List.replicate m (none : Option ℚ)))) = [] := by
  induction m with
  | zero => simp
  | succ m ih => simp [List.replicate_succ, rowSession, ih]

theorem sessions_rows (ss : List Session) (m : Nat) :
    List.filterMap rowSession
      (List.zip (ss.map (fun s => s.loc) ++ List.replicate m "")
        (List.zip (ss.map (fun s => some s.stime) ++ List.replicate m none)
          (ss.map (fun s => some s.etime) ++ List.replicate m none))) = ss := by
  induction ss with
  | nil => simpa using sessions_pad m
  | cons s ss ih => simp [rowSession, ih]

/-- The written rows of the table returned by `_compress_mov` are the sessions of the
reference walk over the visited observations. -/
theorem compress_mov_sessions (loc : List String) (time : List ℚ) (gap : ℚ) :
    (_compress_mov loc time gap).sessions = reference_walk gap none (visited loc time) := by
  simp only [_compress_mov, compress_loop_eq, Frame.sessions, stateOf]
  exact sessions_rows _ _

theorem cmpDouble_le_zero (a b : ℚ) : cmpDouble a b ≤ 0 ↔ a ≤ b := by
  unfold cmpDouble
  split_ifs with h1 h2
  · simp [le_of_lt h1]
  · simp [not_le.mpr h2]
  · simp [not_lt.mp h2]

theorem idxLe_iff (base : List ℚ) (a b : Nat) :
    idxLe base cmpDouble a b ↔ base.getD a 0 ≤ base.getD b 0 :=
  cmpDouble_le_zero _ _

theorem idxLe_total (base : List ℚ) : IsTotal Nat (idxLe base cmpDouble) :=
  ⟨fun a b => by simp only [idxLe_iff]; exact le_total _ _⟩

theorem idxLe_trans (base : List ℚ) : IsTrans Nat (idxLe base cmpDouble) :=
  ⟨fun a b c => by simp only [idxLe_iff]; exact le_trans⟩

theorem visited_sorted (loc : List String) (time : List ℚ) :
    (visited loc time).Pairwise timeLe := by
  have h : (order time time.length cmpDouble).Pairwise (idxLe time cmpDouble) :=
    @List.sorted_insertionSort _ (idxLe time cmpDouble) _ (idxLe_total time) (idxLe_trans time) _
  rw [visited, List.pairwise_map]
  exact h.imp (fun {a b} hab => by
    simpa [timeLe, obsAt] using (idxLe_iff time a b).mp hab)

theorem zip_eq_map_range (loc : List String) (time : List ℚ) (h : loc.length = time.length) :
    List.zip loc time = (List.range time.length).map (obsAt loc time) := by
  apply List.ext_getElem
  · simp [h]
  · intro i h1 h2
    simp at h1
    simp [obsAt, List.getD_eq_getElem, h1.1, h1.2]

theorem visited_perm (loc : List String) (time : List ℚ) (h : loc.length = time.length) :
    (visited loc time).Perm (List.zip loc time) := by
  rw [zip_eq_map_range loc time h, visited, order]
  exact (List.perm_insertionSort _ _).map _

theorem visited_eq_sort (loc : List String) (time : List ℚ) (h : loc.length = time.length) :
    visited loc time = List.insertionSort timeLe (List.zip loc time) := by
  rw [zip_eq_map_range loc time h, visited, order]
  apply List.map_insertionSort
  intro a _ b _
  simp [timeLe, obsAt, idxLe_iff]

theorem visited_length (loc : List String) (time : List ℚ) :
    (visited loc time).length = time.length := by
  simp [visited, order_length]

/-- The times of the visited observations are the sorted timestamps. -/
theorem visited_times (loc : List String) (time : List ℚ) (h : loc.length = time.length) :
    (visited loc time).map Prod.snd = List.insertionSort (fun a b : ℚ => a ≤ b) time := by
  rw [visited_eq_sort loc time h]
  have hm : (List.zip loc time).map Prod.snd = time :=
    List.map_snd_zip loc time (le_of_eq h.symm)
  conv_rhs => rw [← hm]
  apply List.map_insertionSort
  intro a _ b _
  simp [timeLe]

/-! ## Properties of the walk -/

/-- The walk from an open session starts with that session, its end possibly moved; over
time-sorted observations not before the session's end, the end only moves forward. -/
theorem walk_head (gap : ℚ) (rest : List (String × ℚ)) :
    ∀ s : Session, ∃ e tl, reference_walk gap (some s) rest = ⟨s.loc, s.stime, e⟩ :: tl ∧
      ((∀ p ∈ rest, s.etime ≤ p.2) → rest.Pairwise timeLe → s.etime ≤ e) := by
  induction rest with
  | nil => intro s; exact ⟨s.etime, [], by simp [reference_walk], fun _ _ => le_refl _⟩
  | cons p rest ih =>
    intro s
    obtain ⟨L, T⟩ := p
    by_cases hc : L = s.loc ∧ T - s.etime ≤ gap
    · obtain ⟨e, tl, h1, h2⟩ := ih { s with etime := T }
      refine ⟨e, tl, by rw [reference_walk_extend gap s L T rest hc, h1], ?_⟩
      intro hb hs
      rw [List.pairwise_cons] at hs
      exact le_trans (hb (L, T) (List.mem_cons_self _ _)) (h2 (fun p hp => hs.1 p hp) hs.2)
    · exact ⟨s.etime, _, by rw [reference_walk_new gap s L T rest hc], fun _ _ => le_refl _⟩

/-- Every session of the walk starts no later than it ends. -/
theorem walk_start_le_end (gap : ℚ) (rest : List (String × ℚ)) :
    ∀ s : Session, s.stime ≤ s.etime → (∀ p ∈ rest, s.etime ≤ p.2) → rest.Pairwise timeLe →
      ∀ x ∈ reference_walk gap (some s) rest, x.stime ≤ x.etime := by
  induction rest with
  | nil =>
    intro s hs _ _ x hx
    simp only [reference_walk, List.mem_singleton] at hx
    rw [hx]; exact hs
  | cons p rest ih =>
    intro s hs hb hsort x hx
    obtain ⟨L, T⟩ := p
    rw [List.pairwise_cons] at hsort
    have hT : s.etime ≤ T := hb (L, T) (List.mem_cons_self _ _)
    by_cases hc : L = s.loc ∧ T - s.etime ≤ gap
    · rw [reference_walk_extend gap s L T rest hc] at hx
      exact ih { s with etime := T } (le_trans hs hT) (fun p hp => hsort.1 p hp) hsort.2 x hx
    · rw [reference_walk_new gap s L T rest hc, List.mem_cons] at hx
      rcases hx with hx | hx
      · rw [hx]; exact hs
      · exact ih ⟨L, T, T⟩ (le_refl _) (fun p hp => hsort.1 p hp) hsort.2 x hx

/-- Consecutive sessions of the walk do not overlap: each ends before the next starts. -/
theorem walk_chain_time (gap : ℚ) (rest : List (String × ℚ)) :
    ∀ s : Session, (∀ p ∈ rest, s.etime ≤ p.2) → rest.Pairwise timeLe →
      (reference_walk gap (some s) rest).Chain' (fun a b => a.etime ≤ b.stime) := by
  induction rest with
  | nil => intro s _ _; simp [reference_walk]
  | cons p rest ih =>
    intro s hb hsort
    obtain ⟨L, T⟩ := p
    rw [List.pairwise_cons] at hsort
    have hT : s.etime ≤ T := hb (L, T) (List.mem_cons_self _ _)
    by_cases hc : L = s.loc ∧ T - s.etime ≤ gap
    · rw [reference_walk_extend gap s L T rest hc]
      exact ih { s with etime := T } (fun p hp => hsort.1 p hp) hsort.2
    · rw [reference_walk_new gap s L T rest hc]
      have hch := ih ⟨L, T, T⟩ (fun p hp => hsort.1 p hp) hsort.2
      obtain ⟨e, tl, h1, _⟩ := walk_head gap rest ⟨L, T, T⟩
      rw [h1] at hch ⊢
      exact List.chain'_cons.mpr ⟨hT, hch⟩

/-- Consecutive sessions of the walk are at different locations or more than `gap` apart. -/
theorem walk_chain_split (gap : ℚ) (rest : List (String × ℚ)) :
    ∀ s : Session, (reference_walk gap (some s) rest).Chain'
      (fun a b => a.loc ≠ b.loc ∨ gap < b.stime - a.etime) := by
  induction rest with
  | nil => intro s; simp [reference_walk]
  | cons p rest ih =>
    intro s
    obtain ⟨L, T⟩ := p
    by_cases hc : L = s.loc ∧ T - s.etime ≤ gap
    · rw [reference_walk_extend gap s L T rest hc]
      exact ih { s with etime := T }
    · rw [reference_walk_new gap s L T rest hc]
      have hch := ih ⟨L, T, T⟩
      obtain ⟨e, tl, h1, _⟩ := walk_head gap rest ⟨L, T, T⟩
      rw [h1] at hch ⊢
      refine List.chain'_cons.mpr ⟨?_, hch⟩
      by_cases hl : L = s.loc
      · right
        exact not_le.mp (fun h => hc ⟨hl, h⟩)
      · left
        exact fun h => hl h.symm

/-- Every observation of the walk lies in a session at its location. -/
theorem walk_covers (gap : ℚ) (rest : List (String × ℚ)) :
    ∀ s : Session, s.stime ≤ s.etime → (∀ p ∈ rest, s.etime ≤ p.2) → rest.Pairwise timeLe →
      ∀ p ∈ rest, ∃ x ∈ reference_walk gap (some s) rest,
        x.loc = p.1 ∧ x.stime ≤ p.2 ∧ p.2 ≤ x.etime := by
  induction rest with
  | nil => intro s _ _ _ p hp; simp at hp
  | cons q rest ih =>
    intro s hs hb hsort p hp
    obtain ⟨L, T⟩ := q
    rw [List.pairwise_cons] at hsort
    have hT : s.etime ≤ T := hb (L, T) (List.mem_cons_self _ _)
    have hrest : ∀ p ∈ rest, T ≤ p.2 := fun p hp => hsort.1 p hp
    by_cases hc : L = s.loc ∧ T - s.etime ≤ gap
    · rw [reference_walk_extend gap s L T rest hc]
      rcases List.mem_cons.mp hp with hp | hp
      · obtain ⟨e, tl, h1, h2⟩ := walk_head gap rest { s with etime := T }
        refine ⟨⟨s.loc, s.stime, e⟩, by rw [h1]; exact List.mem_cons_self _ _, ?_⟩
        subst hp
        exact ⟨hc.1.symm, le_trans hs hT, h2 hrest hsort.2⟩
      · exact ih { s with etime := T } (le_trans hs hT) hrest hsort.2 p hp
    · rw [reference_walk_new gap s L T rest hc]
      rcases List.mem_cons.mp hp with hp | hp
      · obtain ⟨e, tl, h1, h2⟩ := walk_head gap rest ⟨L, T, T⟩
        refine ⟨⟨L, T, e⟩, by rw [h1]; exact List.mem_cons_of_mem _ (List.mem_cons_self _ _), ?_⟩
        subst hp
        exact ⟨rfl, le_refl _, h2 hrest hsort.2⟩
      · obtain ⟨x, hx, h⟩ := ih ⟨L, T, T⟩ (le_refl _) hrest hsort.2 p hp
        exact ⟨x, List.mem_cons_of_mem _ hx, h⟩

/-- A larger gap never yields more sessions, from open sessions that agree on location
and end time. -/
theorem walk_length_mono (gap1 gap2 : ℚ) (hg : gap1 ≤ gap2) (rest : List (String × ℚ)) :
    ∀ s1 s2 : Session, s1.loc = s2.loc → s1.etime = s2.etime →
      (reference_walk gap2 (some s2) rest).length ≤
        (reference_walk gap1 (some s1) rest).length := by
  induction rest with
  | nil => intro s1 s2 _ _; simp [reference_walk]
  | cons p rest ih =>
    intro s1 s2 hl he
    obtain ⟨L, T⟩ := p
    by_cases h1 : L = s1.loc ∧ T - s1.etime ≤ gap1
    · have h2 : L = s2.loc ∧ T - s2.etime ≤ gap2 :=
        ⟨hl ▸ h1.1, he ▸ le_trans h1.2 hg⟩
      rw [reference_walk_extend gap1 s1 L T rest h1, reference_walk_extend gap2 s2 L T rest h2]
      exact ih _ _ hl rfl
    · rw [reference_walk_new gap1 s1 L T rest h1]
      by_cases h2 : L = s2.loc ∧ T - s2.etime ≤ gap2
      · rw [reference_walk_extend gap2 s2 L T rest h2]
        exact le_trans (ih ⟨L, T, T⟩ { s2 with etime := T } h2.1 rfl) (Nat.le_succ _)
      · rw [reference_walk_new gap2 s2 L T rest h2]
        simpa using ih ⟨L, T, T⟩ ⟨L, T, T⟩ rfl rfl

theorem walk_none_length_mono (gap1 gap2 : ℚ) (hg : gap1 ≤ gap2) (obs : List (String × ℚ)) :
    (reference_walk gap2 none obs).length ≤ (reference_walk gap1 none obs).length := by
  cases obs with
  | nil => simp [reference_walk]
  | cons p rest =>
    obtain ⟨L, T⟩ := p
    simp only [reference_walk]
    exact walk_length_mono gap1 gap2 hg rest _ _ rfl rfl

theorem walk_none_start_le_end (gap : ℚ) (obs : List (String × ℚ)) (hs : obs.Pairwise timeLe) :
    ∀ x ∈ reference_walk gap none obs, x.stime ≤ x.etime := by
  cases obs with
  | nil => simp [reference_walk]
  | cons p rest =>
    obtain ⟨L, T⟩ := p
    rw [List.pairwise_cons] at hs
    simp only [reference_walk]
    exact walk_start_le_end gap rest ⟨L, T, T⟩ (le_refl _) (fun p hp => hs.1 p hp) hs.2

theorem walk_none_chain_time (gap : ℚ) (obs : List (String × ℚ)) (hs : obs.Pairwise timeLe) :
    (reference_walk gap none obs).Chain' (fun a b => a.etime ≤ b.stime) := by
  cases obs with
  | nil => simp [reference_walk]
  | cons p rest =>
    obtain ⟨L, T⟩ := p
    rw [List.pairwise_cons] at hs
    simp only [reference_walk]
    exact walk_chain_time gap rest ⟨L, T, T⟩ (fun p hp => hs.1 p hp) hs.2

theorem walk_none_chain_split (gap : ℚ) (obs : List (String × ℚ)) :
    (reference_walk gap none obs).Chain'
      (fun a b => a.loc ≠ b.loc ∨ gap < b.stime - a.etime) := by
  cases obs with
  | nil => simp [reference_walk]
  | cons p rest =>
    obtain ⟨L, T⟩ := p
    simp only [reference_walk]
    exact walk_chain_split gap rest ⟨L, T, T⟩

theorem walk_none_covers (gap : ℚ) (obs : List (String × ℚ)) (hs : obs.Pairwise timeLe) :
    ∀ p ∈ obs, ∃ x ∈ reference_walk gap none obs,
      x.loc = p.1 ∧ x.stime ≤ p.2 ∧ p.2 ≤ x.etime := by
  cases obs with
  | nil => intro p hp; simp at hp
  | cons q rest =>
    obtain ⟨L, T⟩ := q
    rw [List.pairwise_cons] at hs
    intro p hp
    simp only [reference_walk]
    rcases List.mem_cons.mp hp with hp | hp
    · obtain ⟨e, tl, h1, h2⟩ := walk_head gap rest ⟨L, T, T⟩
      refine ⟨⟨L, T, e⟩, by rw [h1]; exact List.mem_cons_self _ _, ?_⟩
      subst hp
      exact ⟨rfl, le_refl _, h2 (fun p hp => hs.1 p hp) hs.2⟩
    · exact walk_covers gap rest ⟨L, T, T⟩ (le_refl _) (fun p hp => hs.1 p hp) hs.2 p hp

/-- With a negative gap the walk over time-sorted observations never extends a session. -/
theorem walk_negative_gap (gap : ℚ) (hgap : gap < 0) (rest : List (String × ℚ)) :
    ∀ s : Session, (∀ p ∈ rest, s.etime ≤ p.2) → rest.Pairwise timeLe →
      reference_walk gap (some s) rest =
        s :: rest.map (fun p => (⟨p.1, p.2, p.2⟩ : Session)) := by
  induction rest with
  | nil => intro s _ _; simp [reference_walk]
  | cons p rest ih =>
    intro s hb hsort
    obtain ⟨L, T⟩ := p
    rw [List.pairwise_cons] at hsort
    have hT : s.etime ≤ T := hb (L, T) (List.mem_cons_self _ _)
    have hc : ¬(L = s.loc ∧ T - s.etime ≤ gap) := by
      intro h
      linarith [h.2]
    rw [reference_walk_new gap s L T rest hc,
      ih ⟨L, T, T⟩ (fun p hp => hsort.1 p hp) hsort.2]
    simp

theorem walk_none_negative_gap (gap : ℚ) (hgap : gap < 0) (obs : List (String × ℚ))
    (hs : obs.Pairwise timeLe) :
    reference_walk gap none obs = obs.map (fun p => (⟨p.1, p.2, p.2⟩ : Session)) := by
  cases obs with
  | nil => simp [reference_walk]
  | cons p rest =>
    obtain ⟨L, T⟩ := p
    rw [List.pairwise_cons] at hs
    simp only [reference_walk, List.map_cons]
    exact walk_negative_gap gap hgap rest ⟨L, T, T⟩ (fun p hp => hs.1 p hp) hs.2

/-- Observations at the location of the open session, each within `gap` of the one
before, all extend the open session: the walk yields one session, which ends at the
latest of the times. -/
theorem walk_one_location (gap : ℚ) (rest : List (String × ℚ)) :
    ∀ s : Session, (∀ p ∈ rest, p.1 = s.loc) →
      List.Chain (fun a b : ℚ => b - a ≤ gap) s.etime (rest.map Prod.snd) →
      rest.Pairwise timeLe → (∀ p ∈ rest, s.etime ≤ p.2) →
      ∃ e, reference_walk gap (some s) rest = [⟨s.loc, s.stime, e⟩] ∧
        (e = s.etime ∨ e ∈ rest.map Prod.snd) ∧ s.etime ≤ e ∧ ∀ p ∈ rest, p.2 ≤ e := by
  induction rest with
  | nil =>
    intro s _ _ _ _
    exact ⟨s.etime, by simp [reference_walk], Or.inl rfl, le_refl _, by simp⟩
  | cons p rest ih =>
    intro s hl hch hsort hb
    obtain ⟨L, T⟩ := p
    rw [List.pairwise_cons] at hsort
    simp only [List.map_cons, List.chain_cons] at hch
    have hc : L = s.loc ∧ T - s.etime ≤ gap := ⟨hl (L, T) (List.mem_cons_self _ _), hch.1⟩
    have hT : s.etime ≤ T := hb (L, T) (List.mem_cons_self _ _)
    obtain ⟨e, h1, h2, h3, h4⟩ := ih { s with etime := T }
      (fun p hp => hl p (List.mem_cons_of_mem _ hp)) hch.2 hsort.2 (fun p hp => hsort.1 p hp)
    refine ⟨e, by rw [reference_walk_extend gap s L T rest hc, h1], ?_, le_trans hT h3, ?_⟩
    · right
      rcases h2 with h2 | h2
      · simp [h2]
      · simp [h2]
    · intro p hp
      rcases List.mem_cons.mp hp with hp | hp
      · rw [hp]; exact h3
      · exact h4 p hp

/-- The walk yields at most one session per observation, and at least one when it
starts from an open session. -/
theorem walk_length_bounds (gap : ℚ) (rest : List (String × ℚ)) :
    ∀ s : Session, 1 ≤ (reference_walk gap (some s) rest).length ∧
      (reference_walk gap (some s) rest).length ≤ rest.length + 1 := by
  induction rest with
  | nil => intro s; simp [reference_walk]
  | cons p rest ih =>
    intro s
    obtain ⟨L, T⟩ := p
    by_cases hc : L = s.loc ∧ T - s.etime ≤ gap
    · rw [reference_walk_extend gap s L T rest hc]
      have := ih { s with etime := T }
      simp only [List.length_cons]
      omega
    · rw [reference_walk_new gap s L T rest hc]
      have := ih ⟨L, T, T⟩
      simp only [List.length_cons]
      omega

theorem walk_none_length_bounds (gap : ℚ) (obs : List (String × ℚ)) :
    (reference_walk gap none obs).length ≤ obs.length ∧
      (obs ≠ [] → 1 ≤ (reference_walk gap none obs).length) := by
  cases obs with
  | nil => simp [reference_walk]
  | cons p rest =>
    obtain ⟨L, T⟩ := p
    simp only [reference_walk, List.length_cons]
    have := walk_length_bounds gap rest ⟨L, T, T⟩
    exact ⟨this.2, fun _ => this.1⟩

/-! ## Sorting the observations again -/

theorem timeLe_total : IsTotal (String × ℚ) timeLe :=
  ⟨fun p q => le_total p.2 q.2⟩

theorem timeLe_trans : IsTrans (String × ℚ) timeLe :=
  ⟨fun _ _ _ h1 h2 => le_trans h1 h2⟩

theorem timeLtOrEq_antisymm : IsAntisymm (String × ℚ) timeLtOrEq :=
  ⟨fun p q h1 h2 => by
    rcases h1 with h1 | h1
    · rcases h2 with h2 | h2
      · exact absurd h1 (not_lt.mpr (le_of_lt h2))
      · exact h2.symm
    · exact h1⟩

/-- A time-sorted list whose observations with equal timestamps are equal is sorted for
the strict order too. -/
theorem sorted_strict_of_ties (l : List (String × ℚ)) (hs : l.Pairwise timeLe)
    (hties : ∀ p ∈ l, ∀ q ∈ l, p.2 = q.2 → p.1 = q.1) : l.Pairwise timeLtOrEq := by
  refine hs.imp_of_mem ?_
  intro p q hp hq hpq
  rcases lt_or_eq_of_le hpq with h | h
  · exact Or.inl h
  · exact Or.inr (Prod.ext (hties p hp q hq h) h)

/-- Sorting by time gives one result for all arrangements of a list whose observations
with equal timestamps are equal. -/
theorem sort_perm_eq (l l' : List (String × ℚ)) (hll : l'.Perm l)
    (hties : ∀ p ∈ l, ∀ q ∈ l, p.2 = q.2 → p.1 = q.1) :
    List.insertionSort timeLe l' = List.insertionSort timeLe l := by
  have hs : (List.insertionSort timeLe l).Pairwise timeLe :=
    @List.sorted_insertionSort _ timeLe _ timeLe_total timeLe_trans l
  have hs' : (List.insertionSort timeLe l').Pairwise timeLe :=
    @List.sorted_insertionSort _ timeLe _ timeLe_total timeLe_trans l'
  have hm : ∀ p, p ∈ List.insertionSort timeLe l → p ∈ l :=
    fun p hp => (List.perm_insertionSort timeLe l).mem_iff.mp hp
  have hm' : ∀ p, p ∈ List.insertionSort timeLe l' → p ∈ l :=
    fun p hp => hll.mem_iff.mp ((List.perm_insertionSort timeLe l').mem_iff.mp hp)
  have h1 := sorted_strict_of_ties _ hs
    (fun p hp q hq => hties p (hm p hp) q (hm q hq))
  have h2 := sorted_strict_of_ties _ hs'
    (fun p hp q hq => hties p (hm' p hp) q (hm' q hq))
  have hperm : (List.insertionSort timeLe l').Perm (List.insertionSort timeLe l) :=
    ((List.perm_insertionSort timeLe l').trans hll).trans (List.perm_insertionSort timeLe l).symm
  exact @List.eq_of_perm_of_sorted _ timeLtOrEq timeLtOrEq_antisymm _ _ hperm h2 h1

/-- Every pair of the two input columns is visited by the loop. -/
theorem mem_visited_of_mem_zip (loc : List String) (time : List ℚ) (p : String × ℚ)
    (hp : p ∈ List.zip loc time) : p ∈ visited loc time := by
  obtain ⟨i, hi, rfl⟩ := List.mem_iff_getElem.mp hp
  simp only [List.length_zip, lt_min_iff] at hi
  rw [visited, List.mem_map]
  refine ⟨i, ?_, ?_⟩
  · rw [order]
    exact (List.perm_insertionSort _ _).mem_iff.mpr (List.mem_range.mpr hi.2)
  · simp [obsAt, List.getD_eq_getElem, hi.1, hi.2]

/-! ## Compressing the sessions again -/

theorem chain'_and {α : Type} {R S : α → α → Prop} :
    ∀ {l : List α}, l.Chain' R → l.Chain' S → l.Chain' (fun a b => R a b ∧ S a b)
  | [], _, _ => List.chain'_nil
  | [_], _, _ => List.chain'_singleton _
  | a :: b :: l, h1, h2 => by
    rw [List.chain'_cons] at h1 h2 ⊢
    exact ⟨⟨h1.1, h2.1⟩, chain'_and h1.2 h2.2⟩

/-- Observations that each differ from the one before in location, or come more than
`gap` later, each open a session of their own. -/
theorem walk_no_merge (gap : ℚ) (l : List Session) :
    ∀ a : Session,
      List.Chain (fun a b : Session => a.loc ≠ b.loc ∨ gap < b.mid - a.mid) a l →
      reference_walk gap (some a.collapse) (l.map Session.midObs) =
        (a :: l).map Session.collapse := by
  induction l with
  | nil => intro a _; simp [reference_walk]
  | cons b l ih =>
    intro a hch
    rw [List.chain_cons] at hch
    have hc : ¬(b.loc = a.collapse.loc ∧ b.mid - a.collapse.etime ≤ gap) := by
      intro h
      rcases hch.1 with h1 | h1
      · exact h1 h.1.symm
      · exact absurd h.2 (not_le.mpr h1)
    rw [List.map_cons, Session.midObs, reference_walk_new gap a.collapse b.loc b.mid _ hc]
    have := ih b hch.2
    simp only [Session.collapse] at this ⊢
    rw [this]
    simp [Session.collapse]

theorem walk_none_no_merge (gap : ℚ) (l : List Session)
    (hch : l.Chain' (fun a b : Session => a.loc ≠ b.loc ∨ gap < b.mid - a.mid)) :
    reference_walk gap none (l.map Session.midObs) = l.map Session.collapse := by
  cases l with
  | nil => simp [reference_walk]
  | cons a l =>
    have := walk_no_merge gap l a hch
    simp only [Session.collapse] at this
    simp only [List.map_cons, Session.midObs, reference_walk]
    rw [this]
    simp [Session.collapse]

/-- The sessions written by `_compress_mov`, fed back one observation per session at the
midpoint, are visited in their own order and none is merged. -/
theorem recompress_sessions (loc : List String) (time : List ℚ) (gap : ℚ) :
    (_compress_mov ((_compress_mov loc time gap).sessions.map (fun s => s.loc))
        ((_compress_mov loc time gap).sessions.map Session.mid) gap).sessions =
      (_compress_mov loc time gap).sessions.map Session.collapse := by
  generalize hS : (_compress_mov loc time gap).sessions = S
  have hS' : S = reference_walk gap none (visited loc time) := by
    rw [← hS, compress_mov_sessions]
  have hsort := visited_sorted loc time
  have p1 : ∀ x ∈ S, x.stime ≤ x.etime := by
    rw [hS']; exact walk_none_start_le_end gap _ hsort
  have p2 : S.Chain' (fun a b => a.etime ≤ b.stime) := by
    rw [hS']; exact walk_none_chain_time gap _ hsort
  have p3 : S.Chain' (fun a b => a.loc ≠ b.loc ∨ gap < b.stime - a.etime) := by
    rw [hS']; exact walk_none_chain_split gap _
  have p4 : S.Chain' (fun a b => a.mid ≤ b.mid ∧
      (a.loc ≠ b.loc ∨ gap < b.mid - a.mid)) := by
    refine (List.Chain'.iff_mem.mp (chain'_and p2 p3)).imp ?_
    intro a b ⟨ha, hb, h1, h2⟩
    have ha' := p1 a ha
    have hb' := p1 b hb
    have hm : a.mid ≤ a.etime := by simp only [Session.mid]; linarith
    have hm' : b.stime ≤ b.mid := by simp only [Session.mid]; linarith
    refine ⟨by linarith, ?_⟩
    rcases h2 with h2 | h2
    · exact Or.inl h2
    · exact Or.inr (by linarith)
  have hzip : List.zip (S.map (fun s => s.loc)) (S.map Session.mid) = S.map Session.midObs := by
    rw [List.zip_map']
    rfl
  have hsorted : (S.map Session.midObs).Pairwise timeLe := by
    rw [List.pairwise_map]
    have : S.Chain' (fun a b : Session => a.mid ≤ b.mid) := p4.imp (fun _ _ h => h.1)
    have htr : IsTrans Session (fun a b : Session => a.mid ≤ b.mid) :=
      ⟨fun _ _ _ h1 h2 => le_trans h1 h2⟩
    exact (@List.chain'_iff_pairwise _ (fun a b : Session => a.mid ≤ b.mid) htr S).mp this
  rw [compress_mov_sessions, visited_eq_sort _ _ (by simp), hzip,
    List.Sorted.insertionSort_eq hsorted]
  exact walk_none_no_merge gap S (p4.imp (fun _ _ h => h.2))

/-! ## Claims on `_compress_mov` -/

/-- C1: for columns of one length, the sessions written by `_compress_mov` are those of
the reference walk of spec 4.2 over the observations in stable ascending time order; and
locations `[A,A,B,A]` at times `[0,5,20,25]` with gap 10 give `(A,0,5), (B,20,20),
(A,25,25)`. -/
theorem compress_mov_refines_reference (loc : List String) (time : List ℚ) (gap : ℚ)
    (h : loc.length = time.length) :
    (_compress_mov loc time gap).sessions = reference_compress loc time gap ∧
      (_compress_mov ["A", "A", "B", "A"] [0, 5, 20, 25] 10).sessions =
        [⟨"A", 0, 5⟩, ⟨"B", 20, 20⟩, ⟨"A", 25, 25⟩] := by
  constructor
  · rw [compress_mov_sessions, reference_compress, visited_eq_sort loc time h]
  · rw [compress_mov_sessions]
    simp [visited, order, List.range, List.range.loop, idxLe, cmpDouble, obsAt, reference_walk]
    norm_num

theorem compress_mov_refines_reference_witness :
    ["B", "A", "A"].length = [(7 : ℚ), 0, 3].length ∧
      (_compress_mov ["B", "A", "A"] [7, 0, 3] 5).sessions =
        reference_compress ["B", "A", "A"] [7, 0, 3] 5 :=
  ⟨rfl, (compress_mov_refines_reference ["B", "A", "A"] [7, 0, 3] 5 rfl).1⟩

/-- C2, as the code has it: any two adjacent sessions written by `_compress_mov` are at
different locations or are more than `gap` apart (the later one starts more than `gap`
after the earlier one ends). -/
theorem compress_mov_adjacent_split (loc : List String) (time : List ℚ) (gap : ℚ) :
    (_compress_mov loc time gap).sessions.Chain'
      (fun a b => a.loc ≠ b.loc ∨ gap < b.stime - a.etime) := by
  rw [compress_mov_sessions]
  exact walk_none_chain_split gap _

/-- C2 fails as stated: two observations at `A`, 100 seconds apart, with gap 10 give
two adjacent sessions at `A`. -/
theorem compress_mov_adjacent_same_location :
    (0 : ℚ) ≤ 10 ∧
      ¬ (_compress_mov ["A", "A"] [0, 100] 10).sessions.Chain' (fun a b => a.loc ≠ b.loc) := by
  refine ⟨by norm_num, ?_⟩
  rw [compress_mov_sessions]
  simp [visited, order, List.range, List.range.loop, idxLe, cmpDouble, obsAt, reference_walk]
  norm_num

/-- C3: the sessions written by `_compress_mov` are in ascending order of start time;
indeed each session ends no later than the next one starts. -/
theorem compress_mov_ascending (loc : List String) (time : List ℚ) (gap : ℚ) :
    (_compress_mov loc time gap).sessions.Chain'
      (fun a b => a.stime ≤ b.stime ∧ a.etime ≤ b.stime) := by
  rw [compress_mov_sessions]
  have hs := visited_sorted loc time
  have hc := walk_none_chain_time gap _ hs
  have he := walk_none_start_le_end gap _ hs
  refine (List.Chain'.iff_mem.mp hc).imp ?_
  intro a b hab
  exact ⟨le_trans (he a hab.1) hab.2.2, hab.2.2⟩

/-- C4: every session written by `_compress_mov` starts no later than it ends, for every
gap, negative ones included. -/
theorem compress_mov_start_le_end (loc : List String) (time : List ℚ) (gap : ℚ) :
    ∀ s ∈ (_compress_mov loc time gap).sessions, s.stime ≤ s.etime := by
  rw [compress_mov_sessions]
  exact walk_none_start_le_end gap _ (visited_sorted loc time)

theorem compress_mov_start_le_end_witness :
    (⟨"A", 0, 5⟩ : Session) ∈ (_compress_mov ["A", "A", "B"] [0, 5, 20] 10).sessions ∧
      (⟨"A", 0, 5⟩ : Session).stime ≤ (⟨"A", 0, 5⟩ : Session).etime := by
  have hm : (⟨"A", 0, 5⟩ : Session) ∈ (_compress_mov ["A", "A", "B"] [0, 5, 20] 10).sessions := by
    rw [compress_mov_sessions]
    simp [visited, order, List.range, List.range.loop, idxLe, cmpDouble, obsAt, reference_walk]
    norm_num
  exact ⟨hm, compress_mov_start_le_end ["A", "A", "B"] [0, 5, 20] 10 ⟨"A", 0, 5⟩ hm⟩

/-- C5: every input observation `(L, T)` lies in a written session at location `L` whose
interval contains `T`. -/
theorem compress_mov_covers (loc : List String) (time : List ℚ) (gap : ℚ) (L : String) (T : ℚ)
    (hobs : (L, T) ∈ List.zip loc time) :
    ∃ s ∈ (_compress_mov loc time gap).sessions, s.loc = L ∧ s.stime ≤ T ∧ T ≤ s.etime := by
  rw [compress_mov_sessions]
  exact walk_none_covers gap _ (visited_sorted loc time) (L, T)
    (mem_visited_of_mem_zip loc time (L, T) hobs)

theorem compress_mov_covers_witness :
    (("A", (5 : ℚ)) ∈ List.zip ["A", "A", "B"] [(0 : ℚ), 5, 20]) ∧
      ∃ s ∈ (_compress_mov ["A", "A", "B"] [0, 5, 20] 10).sessions,
        s.loc = "A" ∧ s.stime ≤ 5 ∧ 5 ≤ s.etime :=
  ⟨by simp, compress_mov_covers ["A", "A", "B"] [0, 5, 20] 10 "A" 5 (by simp)⟩

/-- C6, as the code has it: when any two observations with equal timestamps carry the
same location, `_compress_mov` returns the same table for every rearrangement of the
observations. -/
theorem compress_mov_perm_invariant (loc loc' : List String) (time time' : List ℚ) (gap : ℚ)
    (h : loc.length = time.length) (h' : loc'.length = time'.length)
    (hperm : (List.zip loc' time').Perm (List.zip loc time))
    (hties : ∀ p ∈ List.zip loc time, ∀ q ∈ List.zip loc time, p.2 = q.2 → p.1 = q.1) :
    _compress_mov loc' time' gap = _compress_mov loc time gap := by
  have hv : visited loc' time' = visited loc time := by
    rw [visited_eq_sort loc time h, visited_eq_sort loc' time' h']
    exact sort_perm_eq _ _ hperm hties
  have hn : time'.length = time.length := by
    have := hperm.length_eq
    simp only [List.length_zip, h, h', min_self] at this
    exact this
  simp only [_compress_mov, compress_loop_eq, hv, hn]

theorem compress_mov_perm_invariant_witness :
    ["A", "B", "A"].length = [(0 : ℚ), 20, 0].length ∧
      ["A", "A", "B"].length = [(0 : ℚ), 0, 20].length ∧
      _compress_mov ["A", "A", "B"] [0, 0, 20] 10 = _compress_mov ["A", "B", "A"] [0, 20, 0] 10 :=
  ⟨rfl, rfl, compress_mov_perm_invariant ["A", "B", "A"] ["A", "A", "B"] [0, 20, 0] [0, 0, 20] 10
    rfl rfl
    (by
      show List.Perm [("A", (0 : ℚ)), ("A", 0), ("B", 20)] [("A", 0), ("B", 20), ("A", 0)]
      exact @List.perm_append_comm _ [("A", (0 : ℚ))] [("A", 0), ("B", 20)])
    (by
      intro p hp q hq hpq
      simp only [List.zip_cons_cons, List.zip_nil_right, List.mem_cons, List.mem_singleton,
        List.not_mem_nil, or_false] at hp hq
      rcases hp with rfl | rfl | rfl <;> rcases hq with rfl | rfl | rfl <;>
        first | rfl | (exfalso; revert hpq; norm_num))⟩

/-- C6 fails as stated: two observations at time 0, one at `A` and one at `B`, give
`A` then `B` in one input order and `B` then `A` in the other. -/
theorem compress_mov_tie_order_matters :
    (List.zip ["B", "A"] [(0 : ℚ), 0]).Perm (List.zip ["A", "B"] [(0 : ℚ), 0]) ∧
      (_compress_mov ["B", "A"] [0, 0] 0).sessions ≠
        (_compress_mov ["A", "B"] [0, 0] 0).sessions := by
  refine ⟨List.Perm.swap _ _ _, ?_⟩
  rw [compress_mov_sessions, compress_mov_sessions]
  simp [visited, order, List.range, List.range.loop, idxLe, cmpDouble, obsAt, reference_walk]

/-- C10: for gaps `gap2 ≥ gap1 ≥ 0`, `_compress_mov` writes at most as many sessions with
`gap2` as with `gap1`. -/
theorem compress_mov_gap_mono (loc : List String) (time : List ℚ) (gap1 gap2 : ℚ)
    (_h0 : 0 ≤ gap1) (h12 : gap1 ≤ gap2) :
    (_compress_mov loc time gap2).sessions.length ≤
      (_compress_mov loc time gap1).sessions.length := by
  rw [compress_mov_sessions, compress_mov_sessions]
  exact walk_none_length_mono gap1 gap2 h12 _

theorem compress_mov_gap_mono_witness :
    (0 : ℚ) ≤ 3 ∧ (3 : ℚ) ≤ 10 ∧
      (_compress_mov ["A", "A", "A"] [0, 5, 7] 10).sessions.length ≤
        (_compress_mov ["A", "A", "A"] [0, 5, 7] 3).sessions.length :=
  ⟨by norm_num, by norm_num,
    compress_mov_gap_mono ["A", "A", "A"] [0, 5, 7] 3 10 (by norm_num) (by norm_num)⟩

/-- C12, as the code has it: the sessions `S` written by `_compress_mov`, fed back with the
same gap as one observation per session at the midpoint `(start_time + end_time) / 2`,
give one session per session of `S`, with the locations of `S` in the order of `S`: each
session of `S` comes back folded onto its midpoint and none is merged with another. -/
theorem compress_mov_recompress (loc : List String) (time : List ℚ) (gap : ℚ)
    (_h0 : 0 ≤ gap) :
    (_compress_mov ((_compress_mov loc time gap).sessions.map (fun s => s.loc))
        ((_compress_mov loc time gap).sessions.map Session.mid) gap).sessions.length =
        (_compress_mov loc time gap).sessions.length ∧
      (_compress_mov ((_compress_mov loc time gap).sessions.map (fun s => s.loc))
        ((_compress_mov loc time gap).sessions.map Session.mid) gap).sessions.map
          (fun s => s.loc) = (_compress_mov loc time gap).sessions.map (fun s => s.loc) ∧
      (_compress_mov ((_compress_mov loc time gap).sessions.map (fun s => s.loc))
        ((_compress_mov loc time gap).sessions.map Session.mid) gap).sessions =
        (_compress_mov loc time gap).sessions.map Session.collapse := by
  rw [recompress_sessions]
  refine ⟨by simp, ?_, rfl⟩
  rw [List.map_map]
  rfl

theorem compress_mov_recompress_witness :
    (0 : ℚ) ≤ 10 ∧
      (_compress_mov
        ((_compress_mov ["A", "A", "B", "A"] [0, 5, 20, 25] 10).sessions.map (fun s => s.loc))
        ((_compress_mov ["A", "A", "B", "A"] [0, 5, 20, 25] 10).sessions.map Session.mid)
        10).sessions.length =
      (_compress_mov ["A", "A", "B", "A"] [0, 5, 20, 25] 10).sessions.length :=
  ⟨by norm_num,
    (compress_mov_recompress ["A", "A", "B", "A"] [0, 5, 20, 25] 10 (by norm_num)).1⟩

/-- C12 fails as stated: two observations at `A` at times 0 and 5 with gap 10 give the one
session `(A, 0, 5)`; fed back at its midpoint it comes back as `(A, 5/2, 5/2)`, which is
not the session it came from. -/
theorem compress_mov_recompress_differs :
    (0 : ℚ) ≤ 10 ∧
      (_compress_mov ["A", "A"] [0, 5] 10).sessions = [⟨"A", 0, 5⟩] ∧
      (_compress_mov ((_compress_mov ["A", "A"] [0, 5] 10).sessions.map (fun s => s.loc))
        ((_compress_mov ["A", "A"] [0, 5] 10).sessions.map Session.mid) 10).sessions =
        [⟨"A", 5 / 2, 5 / 2⟩] ∧
      (_compress_mov ((_compress_mov ["A", "A"] [0, 5] 10).sessions.map (fun s => s.loc))
        ((_compress_mov ["A", "A"] [0, 5] 10).sessions.map Session.mid) 10).sessions ≠
        (_compress_mov ["A", "A"] [0, 5] 10).sessions := by
  have hS : (_compress_mov ["A", "A"] [0, 5] 10).sessions = [⟨"A", 0, 5⟩] := by
    rw [compress_mov_sessions]
    simp [visited, order, List.range, List.range.loop, idxLe, cmpDouble, obsAt, reference_walk]
    norm_num
  have hR : (_compress_mov ((_compress_mov ["A", "A"] [0, 5] 10).sessions.map (fun s => s.loc))
      ((_compress_mov ["A", "A"] [0, 5] 10).sessions.map Session.mid) 10).sessions =
      [⟨"A", 5 / 2, 5 / 2⟩] := by
    rw [recompress_sessions, hS]
    simp [Session.collapse, Session.mid]
  refine ⟨by norm_num, hS, hR, ?_⟩
  rw [hR, hS]
  simp

/-- C14: with a negative gap `_compress_mov` never merges: for `N` observations it writes
`N` sessions, the i-th being `(L, T, T)` for the i-th observation `(L, T)` in stable
ascending time order. -/
theorem compress_mov_negative_gap (loc : List String) (time : List ℚ) (gap : ℚ)
    (h : loc.length = time.length) (hgap : gap < 0) :
    (_compress_mov loc time gap).sessions =
        (List.insertionSort timeLe (List.zip loc time)).map
          (fun p => (⟨p.1, p.2, p.2⟩ : Session)) ∧
      (_compress_mov loc time gap).sessions.length = time.length := by
  have h1 : (_compress_mov loc time gap).sessions =
      (visited loc time).map (fun p => (⟨p.1, p.2, p.2⟩ : Session)) := by
    rw [compress_mov_sessions]
    exact walk_none_negative_gap gap hgap _ (visited_sorted loc time)
  constructor
  · rw [h1, visited_eq_sort loc time h]
  · rw [h1, List.length_map, visited_length]

theorem compress_mov_negative_gap_witness :
    ["A", "A", "B"].length = [(5 : ℚ), 0, 7].length ∧ (-1 : ℚ) < 0 ∧
      (_compress_mov ["A", "A", "B"] [5, 0, 7] (-1)).sessions.length = [(5 : ℚ), 0, 7].length :=
  ⟨rfl, by norm_num,
    (compress_mov_negative_gap ["A", "A", "B"] [5, 0, 7] (-1) rfl (by norm_num)).2⟩

/-- C16: observations that all carry the location `L` and whose timestamps, in ascending
order, differ consecutively by at most `gap` give exactly one session `(L, lo, hi)` with
`lo` the least and `hi` the greatest timestamp; a single observation `(L, T)` gives
`(L, T, T)`; two observations at one location and one time with gap 0 give one session
of zero duration. -/
theorem compress_mov_single_session (loc : List String) (time : List ℚ) (gap : ℚ) (L : String)
    (h : loc.length = time.length) (hne : time ≠ []) (hL : ∀ l ∈ loc, l = L)
    (hgap : (List.insertionSort (fun a b : ℚ => a ≤ b) time).Chain'
      (fun a b => b - a ≤ gap)) :
    (∃ lo hi, (_compress_mov loc time gap).sessions = [⟨L, lo, hi⟩] ∧
        lo ∈ time ∧ hi ∈ time ∧ ∀ t ∈ time, lo ≤ t ∧ t ≤ hi) ∧
      (∀ (L' : String) (T g : ℚ), (_compress_mov [L'] [T] g).sessions = [⟨L', T, T⟩]) ∧
      (∀ (L' : String) (T : ℚ), (_compress_mov [L', L'] [T, T] 0).sessions = [⟨L', T, T⟩]) := by
  refine ⟨?_, ?_, ?_⟩
  · rw [compress_mov_sessions]
    have hvt := visited_times loc time h
    have hvs := visited_sorted loc time
    have hvl : ∀ p ∈ visited loc time, p.1 = L := by
      intro p hp
      have : p ∈ List.zip loc time := (visited_perm loc time h).mem_iff.mp hp
      obtain ⟨a, b⟩ := p
      exact hL a (List.of_mem_zip this).1
    have hmem : ∀ t, t ∈ (visited loc time).map Prod.snd ↔ t ∈ time := by
      intro t
      rw [hvt]
      exact (List.perm_insertionSort _ _).mem_iff
    rw [← hvt] at hgap
    cases hv : visited loc time with
    | nil =>
      have := visited_length loc time
      rw [hv] at this
      exact absurd (List.length_eq_zero.mp this.symm) hne
    | cons p rest =>
      obtain ⟨L0, T0⟩ := p
      rw [hv] at hgap hvs hvl hmem
      rw [List.pairwise_cons] at hvs
      simp only [List.map_cons] at hgap
      have hL0 : L0 = L := hvl (L0, T0) (List.mem_cons_self _ _)
      subst hL0
      have hch : List.Chain (fun a b : ℚ => b - a ≤ gap) T0 (rest.map Prod.snd) := hgap
      obtain ⟨e, h1, h2, h3, h4⟩ := walk_one_location gap rest ⟨L0, T0, T0⟩
        (fun p hp => hvl p (List.mem_cons_of_mem _ hp)) hch hvs.2 (fun p hp => hvs.1 p hp)
      refine ⟨T0, e, by simp only [reference_walk]; exact h1, ?_, ?_, ?_⟩
      · exact (hmem T0).mp (by simp)
      · apply (hmem e).mp
        rcases h2 with h2 | h2
        · simp [h2]
        · exact List.mem_cons_of_mem _ h2
      · intro t ht
        have ht' := (hmem t).mpr ht
        simp only [List.map_cons, List.mem_cons, List.mem_map] at ht'
        rcases ht' with rfl | ⟨p, hp, rfl⟩
        · exact ⟨le_refl _, h3⟩
        · exact ⟨hvs.1 p hp, h4 p hp⟩
  · intro L' T g
    rw [compress_mov_sessions]
    simp [visited, order, List.range, List.range.loop, obsAt, reference_walk]
  · intro L' T
    rw [compress_mov_sessions]
    simp [visited, order, List.range, List.range.loop, idxLe, cmpDouble, obsAt, reference_walk]

theorem compress_mov_single_session_witness :
    ["A", "A", "A"].length = [(8 : ℚ), 0, 5].length ∧
      ∃ lo hi, (_compress_mov ["A", "A", "A"] [8, 0, 5] 5).sessions = [⟨"A", lo, hi⟩] ∧
        lo ∈ [(8 : ℚ), 0, 5] ∧ hi ∈ [(8 : ℚ), 0, 5] ∧
        ∀ t ∈ [(8 : ℚ), 0, 5], lo ≤ t ∧ t ≤ hi :=
  ⟨rfl, (compress_mov_single_session ["A", "A", "A"] [8, 0, 5] 5 "A" rfl (by simp)
    (by simp)
    (by
      simp [List.insertionSort, List.orderedInsert]
      norm_num)).1⟩

/-- C20: each of the three columns returned by `_compress_mov` has `N` entries, `N` the
number of observations; the loop writes the first `j` rows, `j` the number of sessions,
with `j ≤ N` and `1 ≤ j` when `1 ≤ N`; the rows from `j` on keep their initial content. -/
theorem compress_mov_table_rows (loc : List String) (time : List ℚ) (gap : ℚ) :
    (_compress_mov loc time gap).loc_v.length = time.length ∧
      (_compress_mov loc time gap).stime_v.length = time.length ∧
      (_compress_mov loc time gap).etime_v.length = time.length ∧
      (compress_loop loc time gap).j = (_compress_mov loc time gap).sessions.length ∧
      (compress_loop loc time gap).j ≤ time.length ∧
      (1 ≤ time.length → 1 ≤ (compress_loop loc time gap).j) ∧
      (_compress_mov loc time gap).loc_v.drop (compress_loop loc time gap).j =
        List.replicate (time.length - (compress_loop loc time gap).j) "" ∧
      (_compress_mov loc time gap).stime_v.drop (compress_loop loc time gap).j =
        List.replicate (time.length - (compress_loop loc time gap).j) none ∧
      (_compress_mov loc time gap).etime_v.drop (compress_loop loc time gap).j =
        List.replicate (time.length - (compress_loop loc time gap).j) none := by
  have hb := walk_none_length_bounds gap (visited loc time)
  rw [visited_length] at hb
  have hne : 1 ≤ time.length → visited loc time ≠ [] := by
    intro h1 h0
    have := visited_length loc time
    rw [h0] at this
    simp at this
    omega
  rw [compress_mov_sessions]
  simp only [_compress_mov, compress_loop_eq, stateOf, List.length_append, List.length_map,
    List.length_replicate]
  refine ⟨by omega, by omega, by omega, trivial, hb.1, fun h1 => hb.2 (hne h1), ?_, ?_, ?_⟩
  · rw [List.drop_append_of_le_length (by simp), List.drop_of_length_le (by simp)]
    simp
  · rw [List.drop_append_of_le_length (by simp), List.drop_of_length_le (by simp)]
    simp
  · rw [List.drop_append_of_le_length (by simp), List.drop_of_length_le (by simp)]
    simp

/-! ## The flow table -/

theorem total_insert_zero (t : GHashTable) (key : String)
    (h : g_hash_table_contains t key = false) :
    total (g_hash_table_insert t key 0) = total t := by
  induction t with
  | nil => simp [g_hash_table_insert, total]
  | cons e t ih =>
    obtain ⟨k, v⟩ := e
    simp only [g_hash_table_contains, List.any_cons, Bool.or_eq_false_iff] at h
    have ih' := ih (by simpa [g_hash_table_contains] using h.2)
    simp only [total] at ih' ⊢
    simp [g_hash_table_insert, h.1, ih']

theorem total_insert_incr (t : GHashTable) (key : String) :
    total (g_hash_table_insert t key (g_hash_table_lookup t key + 1)) = total t + 1 := by
  induction t with
  | nil => simp [g_hash_table_insert, g_hash_table_lookup, total]
  | cons e t ih =>
    obtain ⟨k, v⟩ := e
    by_cases hk : key_match k key = true
    · simp [g_hash_table_insert, g_hash_table_lookup, total, hk, List.find?_cons]
      omega
    · have hk' : key_match k key = false := by simpa using hk
      have hl : g_hash_table_lookup ((k, v) :: t) key = g_hash_table_lookup t key := by
        simp [g_hash_table_lookup, List.find?_cons, hk']
      rw [hl]
      simp only [total] at ih ⊢
      simp [g_hash_table_insert, hk', ih]
      omega

/-- The update for one link name raises the sum of the counts by one. -/
theorem total_flow_update (t : GHashTable) (link : String) :
    total (flow_update t link) = total t + 1 := by
  simp only [flow_update]
  rw [total_insert_incr]
  by_cases hc : g_hash_table_contains t link = true
  · rw [hc]
    simp
  · have hc' : g_hash_table_contains t link = false := by simpa using hc
    rw [hc']
    simp [total_insert_zero _ _ hc']

theorem insert_keys (t : GHashTable) (key : String) (v : Nat) :
    ∀ e ∈ g_hash_table_insert t key v, e.1 = key ∨ ∃ e' ∈ t, e'.1 = e.1 := by
  induction t with
  | nil =>
    intro e he
    simp only [g_hash_table_insert, List.mem_singleton] at he
    exact Or.inl (by rw [he])
  | cons x t ih =>
    obtain ⟨k0, v0⟩ := x
    intro e he
    by_cases hk : key_match k0 key = true
    · simp only [g_hash_table_insert, hk, if_true, List.mem_cons] at he
      rcases he with rfl | he
      · exact Or.inr ⟨(k0, v0), List.mem_cons_self _ _, rfl⟩
      · exact Or.inr ⟨e, List.mem_cons_of_mem _ he, rfl⟩
    · simp only [g_hash_table_insert, hk, Bool.false_eq_true, if_false, List.mem_cons] at he
      rcases he with rfl | he
      · exact Or.inr ⟨(k0, v0), List.mem_cons_self _ _, rfl⟩
      · rcases ih e he with h | ⟨e', he', h⟩
        · exact Or.inl h
        · exact Or.inr ⟨e', List.mem_cons_of_mem _ he', h⟩

theorem flow_update_keys (t : GHashTable) (link : String) :
    ∀ e ∈ flow_update t link, e.1 = link ∨ ∃ e' ∈ t, e'.1 = e.1 := by
  intro e he
  simp only [flow_update] at he
  rcases insert_keys _ _ _ e he with h | ⟨e', he', h⟩
  · exact Or.inl h
  · by_cases hc : g_hash_table_contains t link = true
    · rw [hc] at he'
      simp only [Bool.not_true, Bool.false_eq_true, if_false] at he'
      exact Or.inr ⟨e', he', h⟩
    · have hc' : g_hash_table_contains t link = false := by simpa using hc
      rw [hc'] at he'
      simp only [Bool.not_false, if_true] at he'
      rcases insert_keys _ _ _ e' he' with h' | ⟨e'', he'', h'⟩
      · exact Or.inl (by rw [← h, h'])
      · exact Or.inr ⟨e'', he'', by rw [h', h]⟩

/-- Two labels free of `->` followed by `->` and a rest spell one name only if they are
the same label followed by the same rest. -/
theorem sep_split_unique : ∀ (a c b d : List Char),
    ¬ ['-', '>'] <:+: a → ¬ ['-', '>'] <:+: c →
      a ++ '-' :: '>' :: b = c ++ '-' :: '>' :: d → a = c ∧ b = d := by
  intro a
  induction a with
  | nil =>
    intro c b d _ hc h
    cases c with
    | nil => simpa using h
    | cons y c =>
      cases c with
      | nil => simp at h
      | cons z c =>
        simp only [List.nil_append, List.cons_append, List.cons.injEq] at h
        exact absurd ⟨[], c, by simp [← h.1, ← h.2.1]⟩ hc
  | cons x a ih =>
    intro c b d ha hc h
    cases c with
    | nil =>
      cases a with
      | nil => simp at h
      | cons z a =>
        simp only [List.nil_append, List.cons_append, List.cons.injEq] at h
        exact absurd ⟨[], a, by simp [h.1, h.2.1]⟩ ha
    | cons y c =>
      simp only [List.cons_append, List.cons.injEq] at h
      have ha' : ¬ ['-', '>'] <:+: a := fun hh => ha (hh.trans (List.suffix_cons x a).isInfix)
      have hc' : ¬ ['-', '>'] <:+: c := fun hh => hc (hh.trans (List.suffix_cons y c).isInfix)
      obtain ⟨h1, h2⟩ := ih c b d ha' hc' h.2
      exact ⟨by rw [h.1, h1], h2⟩

theorem link_name_data (a b : String) :
    (link_name a b).data = a.data ++ '-' :: '>' :: b.data := by
  simp [link_name, String.data_append]

theorem linked_mono (stime etime : List ℚ) (gap1 gap2 : ℚ) (h : gap1 ≤ gap2) (i : Nat)
    (hl : linked stime etime gap1 i = true) : linked stime etime gap2 i = true := by
  simp only [linked, decide_eq_true_eq] at hl ⊢
  exact le_trans hl h

theorem linkedPairs_mono (stime etime : List ℚ) (gap1 gap2 : ℚ) (h : gap1 ≤ gap2) (n : Nat) :
    linkedPairs stime etime gap1 n ≤ linkedPairs stime etime gap2 n := by
  simp only [linkedPairs, ← List.countP_eq_length_filter]
  exact List.countP_mono_left (fun i _ hi => linked_mono stime etime gap1 gap2 h i hi)

/-- An iteration of the loop of `_flow_stat` whose gap test fails always has a result:
it leaves the table and `cur_loc` alone and moves on to the row. -/
theorem flow_step_unlinked (stray : Option Nat) (loc : List String) (stime_ etime_ : List ℚ)
    (gap_ : ℚ) (s : FlowState) (i : Nat) (h : ¬ stime_.getD i 0 - s.last_et ≤ gap_) :
    flow_step stray loc stime_ etime_ gap_ s i =
      some { stat := s.stat, last_loc := loc.getD i "", last_et := etime_.getD i 0,
             cur_loc := s.cur_loc } := by
  simp only [flow_step, if_neg h]

/-- What an iteration that has a result does to the loop state: it moves on to the row,
and the sum of the counts grows by one when the gap test passes. -/
theorem flow_step_some (stray : Option Nat) (loc : List String) (stime_ etime_ : List ℚ)
    (gap_ : ℚ) (s s' : FlowState) (i : Nat)
    (h : flow_step stray loc stime_ etime_ gap_ s i = some s') :
    s'.last_loc = loc.getD i "" ∧ s'.last_et = etime_.getD i 0 ∧
      total s'.stat = total s.stat + (if stime_.getD i 0 - s.last_et ≤ gap_ then 1 else 0) := by
  simp only [flow_step] at h
  by_cases hq : stime_.getD i 0 - s.last_et ≤ gap_
  · rw [if_pos hq] at h ⊢
    cases hn : strlen_cur_loc stray s.cur_loc with
    | none => simp [hn] at h
    | some n =>
      simp only [hn] at h
      by_cases hsz : (cstr s.last_loc).length + n + 3 <
          (cstr s.last_loc).length + 2 + (cstr (loc.getD i "")).length + 1
      · rw [if_pos hsz] at h
        exact absurd h (by simp)
      · rw [if_neg hsz, Option.some.injEq] at h
        subst h
        exact ⟨rfl, rfl, total_flow_update _ _⟩
  · rw [if_neg hq, Option.some.injEq] at h
    subst h
    rw [if_neg hq]
    exact ⟨rfl, rfl, rfl⟩

theorem flow_loop_total (stray : Option Nat) (loc : List String) (stime_ etime_ : List ℚ)
    (gap_ : ℚ) :
    ∀ (m k : Nat) (s s' : FlowState), s.last_et = etime_.getD (k - 1) 0 → k ≠ 0 →
      (List.range' k m).foldlM (flow_step stray loc stime_ etime_ gap_) s = some s' →
      total s'.stat =
        total s.stat + ((List.range' k m).filter (linked stime_ etime_ gap_)).length := by
  intro m
  induction m with
  | zero =>
    intro k s s' _ _ h
    simp only [List.range'_zero, List.foldlM_nil, Option.pure_def, Option.some.injEq] at h
    subst h
    simp
  | succ m ih =>
    intro k s s' hs hk h
    rw [List.range'_succ, List.foldlM_cons, Option.bind_eq_bind, Option.bind_eq_some] at h
    obtain ⟨s1, h1, h2⟩ := h
    obtain ⟨_, he, ht⟩ := flow_step_some stray loc stime_ etime_ gap_ s s1 k h1
    rw [ih (k + 1) s1 s' (by simpa using he) (by omega) h2, ht, hs, List.range'_succ]
    by_cases hq : stime_.getD k 0 - etime_.getD (k - 1) 0 ≤ gap_
    · have hl : linked stime_ etime_ gap_ k = true := by
        simp only [linked, hq, decide_True]
      rw [if_pos hq, List.filter_cons_of_pos hl, List.length_cons]
      omega
    · have hl : ¬ linked stime_ etime_ gap_ k = true := by
        simp only [linked, hq, decide_False]
        simp
      rw [if_neg hq, List.filter_cons_of_neg hl]
      omega

/-- Whenever `_flow_stat` returns a table, its counts sum to the number of linked rows. -/
theorem flow_stat_total (stray : Option Nat) (loc : List String) (stime etime : List ℚ)
    (gap : ℚ) (t : FlowTable) (h : _flow_stat stray loc stime etime gap = some t) :
    t.flows.sum = linkedPairs stime etime gap loc.length := by
  simp only [_flow_stat] at h
  cases hl : loc[0]? with
  | none => simp [hl] at h
  | some l0 =>
    cases he : etime[0]? with
    | none => simp [hl, he] at h
    | some e0 =>
      simp only [hl, he] at h
      cases hloop : flow_loop stray loc stime etime gap l0 e0 with
      | none => simp [hloop] at h
      | some s =>
        simp only [hloop, Option.some.injEq] at h
        subst h
        have he0 : e0 = etime.getD 0 0 := by simp [he]
        have := flow_loop_total stray loc stime etime gap (loc.length - 1) 1 _ s
          (by simpa using he0) (by omega) hloop
        simp only [total, List.map_nil, List.sum_nil, Nat.zero_add] at this
        simpa [linkedPairs] using this

theorem flow_loop_unlinked (stray : Option Nat) (loc : List String) (stime_ etime_ : List ℚ)
    (gap_ : ℚ) :
    ∀ (m k : Nat) (s : FlowState), s.last_et = etime_.getD (k - 1) 0 → k ≠ 0 →
      (∀ i, k ≤ i → i < k + m → linked stime_ etime_ gap_ i = false) →
      ∃ s', (List.range' k m).foldlM (flow_step stray loc stime_ etime_ gap_) s = some s' ∧
        s'.stat = s.stat := by
  intro m
  induction m with
  | zero => intro k s _ _ _; exact ⟨s, by simp, rfl⟩
  | succ m ih =>
    intro k s hs hk hun
    have hk' : ¬ stime_.getD k 0 - s.last_et ≤ gap_ := by
      have := hun k (le_refl _) (by omega)
      simp only [linked, decide_eq_false_iff_not] at this
      rw [hs]
      exact this
    obtain ⟨s', h1, h2⟩ := ih (k + 1)
      { stat := s.stat, last_loc := loc.getD k "", last_et := etime_.getD k 0,
        cur_loc := s.cur_loc } (by simp) (by omega)
      (fun i h1 h2 => hun i (by omega) (by omega))
    refine ⟨s', ?_, h2⟩
    rw [List.range'_succ, List.foldlM_cons, flow_step_unlinked _ _ _ _ _ _ _ hk']
    exact h1

/-- A key in the table after an iteration that has a result was there before, or the gap
test passed and it is the link name of this iteration. -/
theorem flow_step_keys (stray : Option Nat) (loc : List String) (stime_ etime_ : List ℚ)
    (gap_ : ℚ) (s s' : FlowState) (i : Nat)
    (h : flow_step stray loc stime_ etime_ gap_ s i = some s') :
    ∀ e ∈ s'.stat,
      (∃ e' ∈ s.stat, e'.1 = e.1) ∨
        (stime_.getD i 0 - s.last_et ≤ gap_ ∧ e.1 = link_name s.last_loc (loc.getD i "")) := by
  intro e he
  simp only [flow_step] at h
  by_cases hq : stime_.getD i 0 - s.last_et ≤ gap_
  · rw [if_pos hq] at h
    cases hn : strlen_cur_loc stray s.cur_loc with
    | none => simp [hn] at h
    | some n =>
      simp only [hn] at h
      by_cases hsz : (cstr s.last_loc).length + n + 3 <
          (cstr s.last_loc).length + 2 + (cstr (loc.getD i "")).length + 1
      · rw [if_pos hsz] at h
        exact absurd h (by simp)
      · rw [if_neg hsz, Option.some.injEq] at h
        subst h
        rcases flow_update_keys _ _ e he with h1 | h1
        · exact Or.inr ⟨hq, h1⟩
        · exact Or.inl h1
  · rw [if_neg hq, Option.some.injEq] at h
    subst h
    exact Or.inl ⟨e, he, rfl⟩

theorem flow_loop_keys (stray : Option Nat) (loc : List String) (stime_ etime_ : List ℚ)
    (gap_ : ℚ) :
    ∀ (m k : Nat) (s s' : FlowState), s.last_et = etime_.getD (k - 1) 0 →
      s.last_loc = loc.getD (k - 1) "" → k ≠ 0 →
      (List.range' k m).foldlM (flow_step stray loc stime_ etime_ gap_) s = some s' →
      ∀ e ∈ s'.stat,
        (∃ e' ∈ s.stat, e'.1 = e.1) ∨
          ∃ i, k ≤ i ∧ i < k + m ∧ linked stime_ etime_ gap_ i = true ∧
            e.1 = link_name (loc.getD (i - 1) "") (loc.getD i "") := by
  intro m
  induction m with
  | zero =>
    intro k s s' _ _ _ h e he
    simp only [List.range'_zero, List.foldlM_nil, Option.pure_def, Option.some.injEq] at h
    subst h
    exact Or.inl ⟨e, he, rfl⟩
  | succ m ih =>
    intro k s s' hs hl hk h e he
    rw [List.range'_succ, List.foldlM_cons, Option.bind_eq_bind, Option.bind_eq_some] at h
    obtain ⟨s1, h1, h2⟩ := h
    obtain ⟨hl1, he1, _⟩ := flow_step_some stray loc stime_ etime_ gap_ s s1 k h1
    rcases ih (k + 1) s1 s' (by simpa using he1) (by simpa using hl1) (by omega) h2 e he with
      ⟨e', he', h⟩ | ⟨i, h3, h4, h5, h6⟩
    · rcases flow_step_keys stray loc stime_ etime_ gap_ s s1 k h1 e' he' with
        ⟨e'', he'', h'⟩ | ⟨hq, h'⟩
      · exact Or.inl ⟨e'', he'', by rw [h', h]⟩
      · refine Or.inr ⟨k, le_refl _, by omega, ?_, ?_⟩
        · simp only [linked, decide_eq_true_eq]
          rw [← hs]
          exact hq
        · rw [← h, h', hl]
    · exact Or.inr ⟨i, by omega, by omega, h5, h6⟩

/-- Whenever `_flow_stat` returns a table, every link name in it is the link name of a
linked pair of rows. -/
theorem flow_stat_edges (stray : Option Nat) (loc : List String) (stime etime : List ℚ)
    (gap : ℚ) (t : FlowTable) (h : _flow_stat stray loc stime etime gap = some t) :
    ∀ k ∈ t.edges, ∃ i, 1 ≤ i ∧ i < loc.length ∧ linked stime etime gap i = true ∧
      k = link_name (loc.getD (i - 1) "") (loc.getD i "") := by
  simp only [_flow_stat] at h
  cases hl : loc[0]? with
  | none => simp [hl] at h
  | some l0 =>
    cases he : etime[0]? with
    | none => simp [hl, he] at h
    | some e0 =>
      simp only [hl, he] at h
      cases hloop : flow_loop stray loc stime etime gap l0 e0 with
      | none => simp [hloop] at h
      | some s =>
        simp only [hloop, Option.some.injEq] at h
        subst h
        intro k hk
        simp only [List.mem_map] at hk
        obtain ⟨e, hmem, rfl⟩ := hk
        have he0 : e0 = etime.getD 0 0 := by simp [he]
        have hl0 : l0 = loc.getD 0 "" := by simp [hl]
        rcases flow_loop_keys stray loc stime etime gap (loc.length - 1) 1 _ s
          (by simpa using he0) (by simpa using hl0) (by omega) hloop e hmem with
          ⟨e', he', _⟩ | ⟨i, h1, h2, h3, h4⟩
        · simp at he'
        · exact ⟨i, h1, by omega, h3, h4⟩

/-! ## Claims on `_flow_stat` -/

/-- C7 at a failing input: the sessions `(A,0,5), (B,20,20), (A,25,25)` with gap 10 have
one linked row, row 2. There `_flow_stat` takes `strlen` of a `cur_loc` that has not
been assigned: when that read faults, and when it gives 0 (the buffer is then too short
for `B->A`), the call returns no table, where the claim has a table whose counts sum to
1. When the read gives 1 the table `B->A: 1` is returned. -/
theorem flow_stat_unassigned_read :
    linkedPairs [0, 20, 25] [5, 20, 25] 10 ["A", "B", "A"].length = 1 ∧
      _flow_stat none ["A", "B", "A"] [0, 20, 25] [5, 20, 25] 10 = none ∧
      _flow_stat (some 0) ["A", "B", "A"] [0, 20, 25] [5, 20, 25] 10 = none ∧
      _flow_stat (some 1) ["A", "B", "A"] [0, 20, 25] [5, 20, 25] 10 =
        some { edges := ["B->A"], flows := [1] } := by
  have c1 : (cstr "A").length = 1 := by decide
  have c2 : (cstr "B").length = 1 := by decide
  have e1 : link_name "B" "A" = "B->A" := by decide
  have u1 : flow_update [] "B->A" = [("B->A", 1)] := by decide
  refine ⟨?_, ?_, ?_, ?_⟩
  · simp [linkedPairs, linked, List.range', List.filter_cons]
    norm_num
  · simp [_flow_stat, flow_loop, flow_step, strlen_cur_loc, List.range']
    norm_num
  · simp [_flow_stat, flow_loop, flow_step, strlen_cur_loc, List.range', c1, c2]
    norm_num
  · simp [_flow_stat, flow_loop, flow_step, strlen_cur_loc, List.range', c1, c2, e1, u1]
    norm_num [e1, u1]

/-- C8 at a failing input: the sessions `A, Bab, A, BbA` at times `0, 1, 100, 101` with
gap 10 have two linked rows, with the link names `A->Bab` and `A->BbA`, each occurring
once. Whatever `strlen` makes of the unassigned `cur_loc`, `_flow_stat` returns no table
or the one row `A->Bab` with count 2 (the latter when the length read is 3), and no row
`A->BbA`: the table takes the two names for one key. -/
theorem flow_stat_conflates_links :
    _flow_stat (some 3) ["A", "Bab", "A", "BbA"] [0, 1, 100, 101] [0, 1, 100, 101] 10 =
        some { edges := ["A->Bab"], flows := [2] } ∧
      (∀ stray,
        _flow_stat stray ["A", "Bab", "A", "BbA"] [0, 1, 100, 101] [0, 1, 100, 101] 10 = none ∨
        _flow_stat stray ["A", "Bab", "A", "BbA"] [0, 1, 100, 101] [0, 1, 100, 101] 10 =
          some { edges := ["A->Bab"], flows := [2] }) ∧
      FlowTable.count { edges := ["A->Bab"], flows := [2] } "A->Bab" = 2 ∧
      linkedPairsNamed ["A", "Bab", "A", "BbA"] [0, 1, 100, 101] [0, 1, 100, 101] 10
        "A->Bab" = 1 ∧
      FlowTable.count { edges := ["A->Bab"], flows := [2] } "A->BbA" = 0 ∧
      linkedPairsNamed ["A", "Bab", "A", "BbA"] [0, 1, 100, 101] [0, 1, 100, 101] 10
        "A->BbA" = 1 ∧
      key_match "A->Bab" "A->BbA" = true := by
  have c1 : (cstr "A").length = 1 := by decide
  have c2 : (cstr "Bab").length = 3 := by decide
  have c3 : (cstr "BbA").length = 3 := by decide
  have e1 : link_name "A" "Bab" = "A->Bab" := by decide
  have e2 : link_name "Bab" "A" = "Bab->A" := by decide
  have e3 : link_name "A" "BbA" = "A->BbA" := by decide
  have u1 : flow_update [] "A->Bab" = [("A->Bab", 1)] := by decide
  have u2 : flow_update [("A->Bab", 1)] "A->BbA" = [("A->Bab", 2)] := by decide
  have l1 : linked [0, 1, 100, 101] [0, 1, 100, 101] 10 1 = true := by
    norm_num [linked]
  have l2 : linked [0, 1, 100, 101] [0, 1, 100, 101] 10 2 = false := by
    norm_num [linked]
  have l3 : linked [0, 1, 100, 101] [0, 1, 100, 101] 10 3 = true := by
    norm_num [linked]
  have hbig : ∀ n, 3 ≤ n →
      _flow_stat (some n) ["A", "Bab", "A", "BbA"] [0, 1, 100, 101] [0, 1, 100, 101] 10 =
        some { edges := ["A->Bab"], flows := [2] } := by
    intro n hn
    have h2 : ¬ (1 + n + 3 < 7) := by omega
    simp [_flow_stat, flow_loop, flow_step, strlen_cur_loc, List.range', c1, c2, c3,
      e1, e2, e3, u1, u2, h2]
    norm_num [c1, c2, c3, e1, e2, e3, u1, u2, h2]
  have hsmall : ∀ n, n < 3 →
      _flow_stat (some n) ["A", "Bab", "A", "BbA"] [0, 1, 100, 101] [0, 1, 100, 101] 10 =
        none := by
    intro n hn
    have h2 : 1 + n + 3 < 7 := by omega
    simp [_flow_stat, flow_loop, flow_step, strlen_cur_loc, List.range', c1, c2, c3, h2]
  have hnone :
      _flow_stat none ["A", "Bab", "A", "BbA"] [0, 1, 100, 101] [0, 1, 100, 101] 10 = none := by
    simp [_flow_stat, flow_loop, flow_step, strlen_cur_loc, List.range']
  refine ⟨hbig 3 (le_refl _), ?_, by decide, ?_, by decide, ?_, by decide⟩
  · intro stray
    rcases stray with _ | n
    · exact Or.inl hnone
    · by_cases hn : 3 ≤ n
      · exact Or.inr (hbig n hn)
      · exact Or.inl (hsmall n (by omega))
  · simp [linkedPairsNamed, List.range', List.filter_cons, l1, l2, l3, e1, e2, e3]
  · simp [linkedPairsNamed, List.range', List.filter_cons, l1, l2, l3, e1, e2, e3]

/-- C9, as the code has it: for labels `a` and `c` that do not contain `->`, the link name
built for `(a, b)` equals the one built for `(c, d)` only if `a = c` and `b = d`. -/
theorem link_name_injective (a b c d : String)
    (ha : ¬ "->".data <:+: a.data) (hc : ¬ "->".data <:+: c.data)
    (h : link_name a b = link_name c d) : a = c ∧ b = d := by
  have hd : (link_name a b).data = (link_name c d).data := by rw [h]
  rw [link_name_data, link_name_data] at hd
  obtain ⟨h1, h2⟩ := sep_split_unique a.data c.data b.data d.data ha hc hd
  exact ⟨String.ext h1, String.ext h2⟩

theorem link_name_injective_witness :
    (¬ "->".data <:+: "home".data) ∧ (¬ "->".data <:+: "home".data) ∧
      link_name "home" "work" = link_name "home" "work" ∧
      ("home" = "home" ∧ "work" = "work") :=
  ⟨by decide, by decide, rfl,
    link_name_injective "home" "work" "home" "work" (by decide) (by decide) rfl⟩

/-- C9 fails as stated: the pairs `(A->B, C)` and `(A, B->C)` differ and get the one link
name `A->B->C`. -/
theorem link_name_collision :
    link_name "A->B" "C" = link_name "A" "B->C" ∧ ¬ ("A->B" = "A" ∧ "C" = "B->C") := by
  decide

/-- C11 at a failing input: the sessions `(A,0,0), (B,6,6)` with the gaps 10 and 15 have
a linked row for both gaps. When `strlen` of the unassigned `cur_loc` faults, `_flow_stat`
returns no table for either gap, where the claim compares the sums of two tables. -/
theorem flow_stat_gap_mono_unassigned_read :
    (0 : ℚ) ≤ 10 ∧ (10 : ℚ) ≤ 15 ∧
      linked [0, 6] [0, 6] 10 1 = true ∧ linked [0, 6] [0, 6] 15 1 = true ∧
      _flow_stat none ["A", "B"] [0, 6] [0, 6] 10 = none ∧
      _flow_stat none ["A", "B"] [0, 6] [0, 6] 15 = none := by
  refine ⟨by norm_num, by norm_num, by norm_num [linked], by norm_num [linked], ?_, ?_⟩
  · simp [_flow_stat, flow_loop, flow_step, strlen_cur_loc, List.range']
    norm_num
  · simp [_flow_stat, flow_loop, flow_step, strlen_cur_loc, List.range']
    norm_num

/-- C13 on the code: with exactly one session `_flow_stat` returns the empty table; with
no session it reads row 0 of empty columns and returns nothing. -/
theorem flow_stat_few_sessions :
    (∀ (stray : Option Nat) (l : String) (s e gap : ℚ),
        _flow_stat stray [l] [s] [e] gap = some { edges := [], flows := [] }) ∧
      (∀ (stray : Option Nat) (gap : ℚ), _flow_stat stray [] [] [] gap = none) := by
  constructor
  · intro stray l s e gap
    simp [_flow_stat, flow_loop]
  · intro stray gap
    simp [_flow_stat]

/-- C15: for a non-empty session table in time order (each session starts no later than
it ends, and ends no later than the next one starts) and a negative gap, `_flow_stat`
returns the empty table, whatever `strlen` would make of the unassigned `cur_loc`: no row
is linked, so line 102 is not reached. -/
theorem flow_stat_negative_gap (stray : Option Nat) (loc : List String) (stime etime : List ℚ)
    (gap : ℚ)
    (hne : loc ≠ []) (_hs : stime.length = loc.length) (he : etime.length = loc.length)
    (_hse : ∀ i, i < loc.length → stime.getD i 0 ≤ etime.getD i 0)
    (hord : ∀ i, i + 1 < loc.length → etime.getD i 0 ≤ stime.getD (i + 1) 0)
    (hgap : gap < 0) :
    _flow_stat stray loc stime etime gap = some { edges := [], flows := [] } := by
  have hun : ∀ i, 1 ≤ i → i < 1 + (loc.length - 1) → linked stime etime gap i = false := by
    intro i h1 h2
    simp only [linked, decide_eq_false_iff_not, not_le]
    have := hord (i - 1) (by omega)
    rw [show i - 1 + 1 = i by omega] at this
    linarith
  cases loc with
  | nil => exact absurd rfl hne
  | cons l0 loc =>
    cases etime with
    | nil => simp at he
    | cons e0 etime =>
      obtain ⟨s', h1, h2⟩ := flow_loop_unlinked stray (l0 :: loc) stime (e0 :: etime) gap
        ((l0 :: loc).length - 1) 1
        { stat := [], last_loc := l0, last_et := e0, cur_loc := none } rfl (by omega) hun
      have hloop : flow_loop stray (l0 :: loc) stime (e0 :: etime) gap l0 e0 = some s' := h1
      simp only [_flow_stat, List.getElem?_cons_zero, hloop, h2, List.map_nil]

theorem flow_stat_negative_gap_witness :
    (["A", "B", "A"] : List String) ≠ [] ∧
      _flow_stat none ["A", "B", "A"] [0, 20, 25] [5, 20, 25] (-1) =
        some { edges := [], flows := [] } :=
  ⟨by simp,
    flow_stat_negative_gap none ["A", "B", "A"] [0, 20, 25] [5, 20, 25] (-1) (by simp) rfl rfl
      (by
        intro i hi
        have : i = 0 ∨ i = 1 ∨ i = 2 := by simp at hi; omega
        rcases this with rfl | rfl | rfl <;> norm_num)
      (by
        intro i hi
        have : i = 0 ∨ i = 1 := by simp at hi; omega
        rcases this with rfl | rfl <;> norm_num)
      (by norm_num)⟩

/-- C17 at a failing input: the sessions `ab, bA, ab, ab`, one second apart, with gap 10
end in two consecutive sessions at `ab` within the gap, so the link `ab->ab` is due with
count 1. Whatever `strlen` makes of the unassigned `cur_loc`, `_flow_stat` returns no
table or the rows `ab->bA` with count 2 and `bA->ab` with count 1 (the latter when the
length read is 2), and no row `ab->ab`: the self-loop is counted, under the entry of
`ab->bA`. -/
theorem flow_stat_self_loop_conflated :
    _flow_stat (some 2) ["ab", "bA", "ab", "ab"] [0, 1, 2, 3] [0, 1, 2, 3] 10 =
        some { edges := ["ab->bA", "bA->ab"], flows := [2, 1] } ∧
      (∀ stray,
        _flow_stat stray ["ab", "bA", "ab", "ab"] [0, 1, 2, 3] [0, 1, 2, 3] 10 = none ∨
        _flow_stat stray ["ab", "bA", "ab", "ab"] [0, 1, 2, 3] [0, 1, 2, 3] 10 =
          some { edges := ["ab->bA", "bA->ab"], flows := [2, 1] }) ∧
      linked [0, 1, 2, 3] [0, 1, 2, 3] 10 3 = true ∧
      link_name "ab" "ab" = "ab->ab" ∧
      "ab->ab" ∉ ["ab->bA", "bA->ab"] ∧
      FlowTable.count { edges := ["ab->bA", "bA->ab"], flows := [2, 1] } "ab->ab" = 0 ∧
      key_match "ab->bA" "ab->ab" = true := by
  have c1 : (cstr "ab").length = 2 := by decide
  have c2 : (cstr "bA").length = 2 := by decide
  have e1 : link_name "ab" "bA" = "ab->bA" := by decide
  have e2 : link_name "bA" "ab" = "bA->ab" := by decide
  have e3 : link_name "ab" "ab" = "ab->ab" := by decide
  have u1 : flow_update [] "ab->bA" = [("ab->bA", 1)] := by decide
  have u2 : flow_update [("ab->bA", 1)] "bA->ab" = [("ab->bA", 1), ("bA->ab", 1)] := by decide
  have u3 : flow_update [("ab->bA", 1), ("bA->ab", 1)] "ab->ab" =
      [("ab->bA", 2), ("bA->ab", 1)] := by decide
  have hbig : ∀ n, 2 ≤ n →
      _flow_stat (some n) ["ab", "bA", "ab", "ab"] [0, 1, 2, 3] [0, 1, 2, 3] 10 =
        some { edges := ["ab->bA", "bA->ab"], flows := [2, 1] } := by
    intro n hn
    have h2 : ¬ (2 + n + 3 < 7) := by omega
    simp [_flow_stat, flow_loop, flow_step, strlen_cur_loc, List.range', c1, c2,
      e1, e2, e3, u1, u2, u3, h2]
    norm_num [c1, c2, e1, e2, e3, u1, u2, u3, h2]
  have hsmall : ∀ n, n < 2 →
      _flow_stat (some n) ["ab", "bA", "ab", "ab"] [0, 1, 2, 3] [0, 1, 2, 3] 10 = none := by
    intro n hn
    have h2 : 2 + n + 3 < 7 := by omega
    simp [_flow_stat, flow_loop, flow_step, strlen_cur_loc, List.range', c1, c2, h2]
  have hnone :
      _flow_stat none ["ab", "bA", "ab", "ab"] [0, 1, 2, 3] [0, 1, 2, 3] 10 = none := by
    simp [_flow_stat, flow_loop, flow_step, strlen_cur_loc, List.range']
  refine ⟨hbig 2 (le_refl _), ?_, by norm_num [linked], e3, by decide, by decide, by decide⟩
  intro stray
  rcases stray with _ | n
  · exact Or.inl hnone
  · by_cases hn : 2 ≤ n
    · exact Or.inr (hbig n hn)
    · exact Or.inl (hsmall n (by omega))

/-- C19 at a failing input: `X` is the sessions `N, Sab` at times `0, 1` and `Y` the
sessions `N, SbA` at times `100, 101`, with gap 10, so the first row of `Y` is not
linked to the last of `X`. With 3 for the length read from the unassigned `cur_loc`, the
table of `X` holds `N->Sab` once and the table of `Y` holds `N->SbA` once; the table of
`X ++ Y` holds `N->Sab` twice and no row `N->SbA`, where the sum of the parts is 1 for
`N->SbA`. Whatever that read gives, `X ++ Y` has no table or this one. -/
theorem flow_stat_append_conflated :
    _flow_stat (some 3) ["N", "Sab"] [0, 1] [0, 1] 10 =
        some { edges := ["N->Sab"], flows := [1] } ∧
      _flow_stat (some 3) ["N", "SbA"] [100, 101] [100, 101] 10 =
        some { edges := ["N->SbA"], flows := [1] } ∧
      _flow_stat (some 3) (["N", "Sab"] ++ ["N", "SbA"]) ([0, 1] ++ [100, 101])
          ([0, 1] ++ [100, 101]) 10 =
        some { edges := ["N->Sab"], flows := [2] } ∧
      (∀ stray,
        _flow_stat stray (["N", "Sab"] ++ ["N", "SbA"]) ([0, 1] ++ [100, 101])
          ([0, 1] ++ [100, 101]) 10 = none ∨
        _flow_stat stray (["N", "Sab"] ++ ["N", "SbA"]) ([0, 1] ++ [100, 101])
          ([0, 1] ++ [100, 101]) 10 = some { edges := ["N->Sab"], flows := [2] }) ∧
      linked ([0, 1] ++ [100, 101]) ([0, 1] ++ [100, 101]) 10 2 = false ∧
      FlowTable.count { edges := ["N->Sab"], flows := [2] } "N->SbA" = 0 ∧
      FlowTable.count { edges := ["N->Sab"], flows := [1] } "N->SbA" +
        FlowTable.count { edges := ["N->SbA"], flows := [1] } "N->SbA" + 0 = 1 ∧
      key_match "N->Sab" "N->SbA" = true := by
  have c1 : (cstr "N").length = 1 := by decide
  have c2 : (cstr "Sab").length = 3 := by decide
  have c3 : (cstr "SbA").length = 3 := by decide
  have e1 : link_name "N" "Sab" = "N->Sab" := by decide
  have e3 : link_name "N" "SbA" = "N->SbA" := by decide
  have u1 : flow_update [] "N->Sab" = [("N->Sab", 1)] := by decide
  have u2 : flow_update [("N->Sab", 1)] "N->SbA" = [("N->Sab", 2)] := by decide
  have u3 : flow_update [] "N->SbA" = [("N->SbA", 1)] := by decide
  have hbig : ∀ n, 3 ≤ n →
      _flow_stat (some n) (["N", "Sab"] ++ ["N", "SbA"]) ([0, 1] ++ [100, 101])
          ([0, 1] ++ [100, 101]) 10 = some { edges := ["N->Sab"], flows := [2] } := by
    intro n hn
    have h2 : ¬ (1 + n + 3 < 7) := by omega
    simp [_flow_stat, flow_loop, flow_step, strlen_cur_loc, List.range', c1, c2, c3,
      e1, e3, u1, u2, h2]
    norm_num [c1, c2, c3, e1, e3, u1, u2, h2]
  have hsmall : ∀ n, n < 3 →
      _flow_stat (some n) (["N", "Sab"] ++ ["N", "SbA"]) ([0, 1] ++ [100, 101])
          ([0, 1] ++ [100, 101]) 10 = none := by
    intro n hn
    have h2 : 1 + n + 3 < 7 := by omega
    simp [_flow_stat, flow_loop, flow_step, strlen_cur_loc, List.range', c1, c2, c3, h2]
  have hnone :
      _flow_stat none (["N", "Sab"] ++ ["N", "SbA"]) ([0, 1] ++ [100, 101])
          ([0, 1] ++ [100, 101]) 10 = none := by
    simp [_flow_stat, flow_loop, flow_step, strlen_cur_loc, List.range']
  refine ⟨?_, ?_, hbig 3 (le_refl _), ?_, by norm_num [linked], by decide, by decide,
    by decide⟩
  · simp [_flow_stat, flow_loop, flow_step, strlen_cur_loc, List.range', c1, c2, e1, u1]
  · simp [_flow_stat, flow_loop, flow_step, strlen_cur_loc, List.range', c1, c3, e3, u3]
    norm_num [c1, c3, e3, u3]
  · intro stray
    rcases stray with _ | n
    · exact Or.inl hnone
    · by_cases hn : 3 ≤ n
      · exact Or.inr (hbig n hn)
      · exact Or.inl (hsmall n (by omega))

end Flowmap
